import Mathlib

/-! Visit cache of the document store (searchlib/docstore/visitcache.cpp)

A shallow embedding of `KeySet`, `BlobSet`, `CompressedBlobSet` and of the
`VisitCache` with its subset index, of the ordering visitor of the document selection
(document/select/orderingselector.cpp) and of the dimension part of the dense tensor
binary format (eval/tensor/serialization/dense_binary_format.cpp), followed by the
properties proved about them.

Conventions of the embedding:
* ids (`uint32_t` lids) and byte counts are natural numbers; no arithmetic is done on ids,
  and the widths of the `LidPosition` fields are declared in `visitcache.h`, which is not
  among the sources, so offsets and lengths are kept as natural numbers;
* a byte buffer is a list of bytes, a byte being a natural number on which no arithmetic
  is done;
* a `std::vector` is a list, an `assert` that fails is the result `none`;
* the hash maps `_lid2Id` and `_id2KeySet` are finite maps given by their lookup function.
-/

namespace Vespa

/-! ## KeySet -/

/-- One byte of a payload. -/
abbrev Byte := Nat

/-- The class `KeySet`: its only member is the vector `_keys`. -/
structure KeySet where
  keys : List Nat
  deriving DecidableEq, Repr

/-- The default constructor `KeySet()`: no keys. -/
def KeySet.empty : KeySet := ⟨[]⟩

/-- The constructor `KeySet(uint32_t key)`: one `push_back`. -/
def KeySet.single (key : Nat) : KeySet := ⟨[key]⟩

/-- The constructor `KeySet(const LidVector &)`: copy the vector, then `std::sort` it
(ascending, by the order of the integers). -/
def KeySet.ofLids (lids : List Nat) : KeySet := ⟨lids.insertionSort (· ≤ ·)⟩

/-- The member `KeySet::empty()`. -/
def KeySet.isEmpty (k : KeySet) : Bool := k.keys.isEmpty

/-- The algorithm `std::includes(first1, last1, first2, last2)` on integers:
walk both ranges; fail when the first range is exhausted or the wanted element is
smaller than the current one; advance the second range only on an equal element. -/
def includes : List Nat → List Nat → Bool
  | _, [] => true
  | [], _ :: _ => false
  | a :: as, b :: bs =>
    if b < a then false
    else if a < b then includes as (b :: bs)
    else includes as bs

/-- The member `KeySet::contains(rhs)`. -/
def KeySet.contains (k rhs : KeySet) : Bool := includes k.keys rhs.keys

/-! ## BlobSet -/

/-- The class `BlobSet::LidPosition`: a lid, the offset of its blob and the blob's size. -/
structure LidPosition where
  lid : Nat
  offset : Nat
  size : Nat
  deriving DecidableEq, Repr

/-- The class `BlobSet`: the position table and the contiguous buffer. -/
structure BlobSet where
  positions : List LidPosition
  buffer : List Byte
  deriving DecidableEq, Repr

/-- The default constructor `BlobSet()`. -/
def BlobSet.empty : BlobSet := ⟨[], []⟩

/-- The helper `getBufferSize(p)`: `0` for an empty table, else offset plus size of the
last position. -/
def getBufferSize (p : List LidPosition) : Nat :=
  match p.getLast? with
  | none => 0
  | some last => last.offset + last.size

/-- The constructor `BlobSet(positions, buffer)`: the stream takes over the allocation and
is given the length `getBufferSize(positions)`, so its content is that many bytes: the
bytes of the allocation first; what the source reads past the data of the allocation is
not determined by it and is taken as `0`. -/
def BlobSet.ofAlloc (positions : List LidPosition) (alloc : List Byte) : BlobSet :=
  ⟨positions,
    alloc.take (getBufferSize positions) ++
      List.replicate (getBufferSize positions - alloc.length) 0⟩

/-- The member `BlobSet::append(lid, blob)`. -/
def BlobSet.append (b : BlobSet) (lid : Nat) (blob : List Byte) : BlobSet :=
  ⟨b.positions ++ [⟨lid, getBufferSize b.positions, blob.length⟩], b.buffer ++ blob⟩

/-- The loop of `BlobSet::get(lid)` over the positions: the first position with the lid
selects `size` bytes at `offset`; no match leaves the default (empty) buffer reference. -/
def BlobSet.scan (buffer : List Byte) (lid : Nat) : List LidPosition → List Byte
  | [] => []
  | pos :: rest =>
    if pos.lid = lid then (buffer.drop pos.offset).take pos.size
    else BlobSet.scan buffer lid rest

/-- The member `BlobSet::get(lid)`. -/
def BlobSet.get (b : BlobSet) (lid : Nat) : List Byte :=
  BlobSet.scan b.buffer lid b.positions

/-- The BlobSet after a sequence of `append(id, payload)` calls on `b`. -/
def BlobSet.appendAll (b : BlobSet) (calls : List (Nat × List Byte)) : BlobSet :=
  calls.foldl (fun acc c => acc.append c.1 c.2) b

/-- The member `BlobSet::getPositions()`. -/
def BlobSet.getPositions (b : BlobSet) : List LidPosition := b.positions

/-- The member `BlobSet::getBuffer()`: the whole buffer. -/
def BlobSet.getBuffer (b : BlobSet) : List Byte := b.buffer

/-! ## CompressedBlobSet -/

/-- Modelled from the spec: the codec tag `document::CompressionConfig::Type`, an
enumeration declared in a header that is not among the sources. The source names `LZ4`;
the spec speaks of several supported tags and of data stored verbatim. -/
inductive CompressionType where
  | NONE
  | UNCOMPRESSABLE
  | LZ4
  deriving DecidableEq, Repr

/-- The part of `document::CompressionConfig` that the visit cache reads: the field `type`;
the remaining tuning fields are summarised by `level`. -/
structure CompressionConfig where
  type : CompressionType
  level : Nat
  deriving DecidableEq, Repr

/-- The external codec: `document::compress(config, org, compressed, false)` returns the
tag it used and fills `compressed`; `document::decompress(tag, len, data, uncompressed, false)`
fills `uncompressed`. -/
structure Codec where
  compress : CompressionConfig → List Byte → CompressionType × List Byte
  decompress : CompressionType → Nat → List Byte → List Byte

/-- The assumption on the codec: decompressing with the recorded tag and the original
length gives back the original bytes. -/
def Codec.Inverts (c : Codec) : Prop :=
  ∀ (cfg : CompressionConfig) (org : List Byte),
    c.decompress (c.compress cfg org).1 org.length (c.compress cfg org).2 = org

/-- The class `CompressedBlobSet`: codec tag, position table, compressed buffer. -/
structure CompressedBlobSet where
  compression : CompressionType
  positions : List LidPosition
  buffer : List Byte
  deriving DecidableEq, Repr

/-- The default constructor `CompressedBlobSet()`: tag `LZ4`, nothing else. -/
def CompressedBlobSet.default : CompressedBlobSet := ⟨CompressionType.LZ4, [], []⟩

/-- The constructor `CompressedBlobSet(compression, uncompressed)`: the tag starts as the
configured type and the buffer empty; only for a non-empty position table the codec is
run, its tag recorded and its output copied. -/
def CompressedBlobSet.ofBlobSet (codec : Codec) (compression : CompressionConfig)
    (uncompressed : BlobSet) : CompressedBlobSet :=
  if uncompressed.getPositions.isEmpty then
    ⟨compression.type, uncompressed.getPositions, []⟩
  else
    let r := codec.compress compression uncompressed.getBuffer
    ⟨r.1, uncompressed.getPositions, r.2⟩

/-- The member `CompressedBlobSet::getBlobSet()`: decompress (only for a non-empty table)
with the length hint `getBufferSize(_positions)`, then build the BlobSet on the result. -/
def CompressedBlobSet.getBlobSet (codec : Codec) (c : CompressedBlobSet) : BlobSet :=
  let uncompressed : List Byte :=
    if c.positions.isEmpty then []
    else codec.decompress c.compression (getBufferSize c.positions) c.buffer
  BlobSet.ofAlloc c.positions uncompressed

/-- The member `CompressedBlobSet::empty()`: no positions. -/
def CompressedBlobSet.isEmpty (c : CompressedBlobSet) : Bool := c.positions.isEmpty

/-! ## The backing store adapter -/

/-- What surrounds the cache: the codec and its configuration, the external data store
(`IDataStore::read(lids, visitor)` is given by the sequence of `(lid, blob)` callbacks it
delivers for the lids), the capacity `maxBytes` and the accounted size of an entry. -/
structure Env where
  codec : Codec
  compression : CompressionConfig
  visit : List Nat → List (Nat × List Byte)
  maxBytes : Nat
  sizeOf : KeySet → CompressedBlobSet → Nat

/-- The callback `VisitCollector::visit(lid, buf)`: only a non-empty blob is appended. -/
def VisitCollector.visit (blobSet : BlobSet) (lid : Nat) (buf : List Byte) : BlobSet :=
  if buf.length > 0 then blobSet.append lid buf else blobSet

/-- The collector after the data store has delivered its callbacks. -/
def VisitCollector.collect (calls : List (Nat × List Byte)) : BlobSet :=
  calls.foldl (fun acc c => VisitCollector.visit acc c.1 c.2) BlobSet.empty

/-- The member `VisitCache::BackingStore::read(key, blobs)`: the flag returned and the
value assigned to `blobs`. -/
def BackingStore.read (env : Env) (key : KeySet) : Bool × CompressedBlobSet :=
  let blobs := CompressedBlobSet.ofBlobSet env.codec env.compression
    (VisitCollector.collect (env.visit key.keys))
  (!blobs.isEmpty, blobs)

/-! ## The cache and its subset index -/

/-- The state of `VisitCache::Cache`: the two index maps `_lid2Id` and `_id2KeySet` of the
source, together with the state of its parent class, the generic LRU cache, which is not
among the sources and is taken from the spec: the entries (most recently used first), the
running byte total and the hit and miss counters. -/
structure Cache where
  entries : List (KeySet × CompressedBlobSet)
  lid2Id : Nat → Option Nat
  id2KeySet : Nat → Option KeySet
  sizeBytes : Nat
  hit : Nat
  miss : Nat

/-- The cache right after construction. -/
def Cache.init : Cache := ⟨[], fun _ => none, fun _ => none, 0, 0, 0⟩

/-- Assignment `m[k] = v` on a hash map. -/
def mapSet {V : Type} (m : Nat → Option V) (k : Nat) (v : V) : Nat → Option V :=
  fun x => if x = k then some v else m x

/-- The call `m.erase(k)` on a hash map. -/
def mapErase {V : Type} (m : Nat → Option V) (k : Nat) : Nat → Option V :=
  fun x => if x = k then none else m x

/-- The call `found.insert(id)` on a `std::set<uint32_t>`, kept as an ascending list
without repetition. -/
def IdSet.insert (found : List Nat) (id : Nat) : List Nat :=
  if id ∈ found then found else found.orderedInsert (· ≤ ·) id

/-- The member `VisitCache::Cache::findSetsContaining(guard, keys)`. -/
def Cache.findSetsContaining (s : Cache) (keys : KeySet) : List Nat :=
  keys.keys.foldl
    (fun found subKey =>
      match s.lid2Id subKey with
      | some id => IdSet.insert found id
      | none => found)
    []

/-- The read `_id2KeySet[id]` through `operator[]`: an absent id is first given a
default-constructed KeySet. -/
def Cache.id2KeySetAt (s : Cache) (id : Nat) : KeySet × Cache :=
  match s.id2KeySet id with
  | some k => (k, s)
  | none => (KeySet.empty, { s with id2KeySet := mapSet s.id2KeySet id KeySet.empty })

/-- The member `VisitCache::Cache::onInsert(key)`. The key is never empty where the cache
calls it (`front()` of an empty vector is undefined; the embedding then changes nothing). -/
def Cache.onInsert (s : Cache) (key : KeySet) : Cache :=
  match key.keys.head? with
  | none => s
  | some first =>
    { s with
      id2KeySet := mapSet s.id2KeySet first key
      lid2Id := key.keys.foldl (fun m subKey => mapSet m subKey first) s.lid2Id }

/-- The member `VisitCache::Cache::onRemove(key)`. For an empty key only the loop (which
does nothing) is embedded, `front()` being undefined there. -/
def Cache.onRemove (s : Cache) (key : KeySet) : Cache :=
  { s with
    lid2Id := key.keys.foldl (fun m subKey => mapErase m subKey) s.lid2Id
    id2KeySet :=
      match key.keys.head? with
      | none => s.id2KeySet
      | some first => mapErase s.id2KeySet first }

/-- Modelled from the spec: the lookup of the generic LRU cache (`vespalib::cache`, the
parent class of `VisitCache::Cache`, whose code is not among the sources): the entry stored
under the key, if any. -/
def Cache.lookup (s : Cache) (key : KeySet) : Option (KeySet × CompressedBlobSet) :=
  s.entries.find? (fun e => e.1 = key)

/-- Modelled from the spec: `hasKey` of the generic LRU cache, which is not among the
sources: a lookup without any effect on the counters. -/
def Cache.hasKey (s : Cache) (key : KeySet) : Bool := (s.lookup key).isSome

/-- Modelled from the spec: removal of an entry by the generic LRU cache, which is not
among the sources (invalidation and eviction): if the key is present, `onRemove(key)`
runs, the byte size of the entry is subtracted from the running total and the map entry is
removed; an absent key changes nothing. -/
def Cache.invalidate (env : Env) (s : Cache) (key : KeySet) : Cache :=
  match s.lookup key with
  | none => s
  | some e =>
    Cache.onRemove
      { s with
        entries := s.entries.filter (fun x => x.1 ≠ key)
        sizeBytes := s.sizeBytes - env.sizeOf key e.2 }
      key

/-- Modelled from the spec: the eviction loop of the generic LRU cache, which is not
among the sources: the older entries are removed, least recently used first, until the
running total is at or below the capacity or only the entry just inserted remains. The
first argument lists the older entries, least recently used first. -/
def Cache.evict (env : Env) : List (KeySet × CompressedBlobSet) → Cache → Cache
  | [], s => s
  | e :: older, s =>
    if s.sizeBytes ≤ env.maxBytes then s
    else Cache.evict env older (Cache.invalidate env s e.1)

/-- Modelled from the spec: the insert path of the generic LRU cache, which is not among
the sources: `onInsert(key)` runs, the entry becomes the most recently used one, its byte
size is added to the running total, then the eviction loop runs. -/
def Cache.insert (env : Env) (s : Cache) (key : KeySet) (value : CompressedBlobSet) : Cache :=
  let s1 := Cache.onInsert s key
  let s2 : Cache :=
    { s1 with
      entries := (key, value) :: s1.entries
      sizeBytes := s1.sizeBytes + env.sizeOf key value }
  Cache.evict env s1.entries.reverse s2

/-- Modelled from the spec: `read(key)` of the generic LRU cache (the spec's
`fetchOrPopulate`), which is not among the sources, for one caller at a time: a present
key becomes the most recently used one, counts a hit and its value is returned; an absent
key counts a miss, the backing store is read and the value is inserted when that read
reports success. -/
def Cache.read (env : Env) (s : Cache) (key : KeySet) : CompressedBlobSet × Cache :=
  match s.lookup key with
  | some e =>
    (e.2, { s with
            entries := e :: s.entries.filter (fun x => x.1 ≠ key)
            hit := s.hit + 1 })
  | none =>
    let s1 : Cache := { s with miss := s.miss + 1 }
    let r := BackingStore.read env key
    if r.1 then (r.2, Cache.insert env s1 key r.2) else (r.2, s1)

/-- The member `VisitCache::Cache::locateAndInvalidateOtherSubsets(keys)`; `none` when one
of its two assertions fails. -/
def Cache.locateAndInvalidateOtherSubsets (env : Env) (s : Cache) (keys : KeySet) :
    Option Cache :=
  let otherSubSets := s.findSetsContaining keys
  if otherSubSets.length ≤ 1 then
    match otherSubSets.head? with
    | none => some s
    | some id =>
      let r := s.id2KeySetAt id
      if keys.contains r.1 then some (Cache.invalidate env r.2 r.1) else none
  else none

/-- The member `VisitCache::Cache::removeKey(subKey)`. -/
def Cache.removeKey (env : Env) (s : Cache) (subKey : Nat) : Cache :=
  match s.lid2Id subKey with
  | none => s
  | some id =>
    let r := s.id2KeySetAt id
    Cache.invalidate env r.2 r.1

/-! ## VisitCache -/

/-- The member `VisitCache::read(lids)`: the value returned and the cache afterwards;
`none` when an assertion fails on the way. -/
def VisitCache.read (env : Env) (s : Cache) (lids : List Nat) :
    Option (CompressedBlobSet × Cache) :=
  let key := KeySet.ofLids lids
  if !key.isEmpty then
    if !s.hasKey key then
      match Cache.locateAndInvalidateOtherSubsets env s key with
      | none => none
      | some s1 => some (Cache.read env s1 key)
    else some (Cache.read env s key)
  else some (CompressedBlobSet.default, s)

/-- The member `VisitCache::remove(key)`. -/
def VisitCache.remove (env : Env) (s : Cache) (key : Nat) : Cache :=
  Cache.removeKey env s key

/-- The value type `CacheStats(hits, misses, elements, memory_used)`. -/
structure CacheStats where
  hits : Nat
  misses : Nat
  elements : Nat
  memory_used : Nat
  deriving DecidableEq, Repr

/-- The member `VisitCache::getCacheStats()`. -/
def VisitCache.getCacheStats (s : Cache) : CacheStats :=
  ⟨s.hit, s.miss, s.entries.length, s.sizeBytes⟩

/-- A call made on the VisitCache. -/
inductive Op where
  | read (lids : List Nat)
  | remove (lid : Nat)
  deriving DecidableEq, Repr

/-- One call on the VisitCache; `none` when it aborts. -/
def VisitCache.step (env : Env) (s : Cache) : Op → Option Cache
  | Op.read lids => (VisitCache.read env s lids).map (fun r => r.2)
  | Op.remove lid => some (VisitCache.remove env s lid)

/-- A sequence of calls, made one after the other; `none` when one of them aborts. -/
def VisitCache.run (env : Env) (s : Cache) : List Op → Option Cache
  | [] => some s
  | op :: ops =>
    match VisitCache.step env s op with
    | none => none
    | some s1 => VisitCache.run env s1 ops

/-- How many of the calls are reads of a non-empty id collection. -/
def countNonEmptyReads : List Op → Nat
  | [] => 0
  | Op.read lids :: ops => (if lids.isEmpty then 0 else 1) + countNonEmptyReads ops
  | Op.remove _ :: ops => countNonEmptyReads ops

/-! ## Auxiliary definitions used in the statements and proofs -/

/-- The position table that appends of the given calls produce when the buffer already
holds `off` bytes: each blob is placed right after the previous one. -/
def BlobSet.layout : Nat → List (Nat × List Byte) → List LidPosition
  | _, [] => []
  | off, c :: rest => ⟨c.1, off, c.2.length⟩ :: BlobSet.layout (off + c.2.length) rest

/-- The payload of the first call that carries the id; empty when there is none. -/
def firstPayload (id : Nat) : List (Nat × List Byte) → List Byte
  | [] => []
  | c :: rest => if c.1 = id then c.2 else firstPayload id rest

/-- A codec that stores the data verbatim under the tag `NONE`. -/
def Codec.verbatim : Codec :=
  ⟨fun _ org => (CompressionType.NONE, org), fun _ _ data => data⟩

/-- Invariant I2: the KeySets of the live entries are pairwise disjoint. -/
def Cache.Disjoint (s : Cache) : Prop :=
  s.entries.Pairwise (fun e1 e2 => ∀ id : Nat, id ∈ e1.1.keys → id ∉ e2.1.keys)

/-- Invariant I1: for every live entry with KeySet `K`, every id of `K` is mapped by
`_lid2Id` to the minimum id of `K`, and `_id2KeySet` maps that minimum id to `K`. -/
def Cache.Indexed (s : Cache) : Prop :=
  ∀ e ∈ s.entries, ∃ m : Nat, m ∈ e.1.keys ∧ (∀ id ∈ e.1.keys, m ≤ id) ∧
    (∀ id ∈ e.1.keys, s.lid2Id id = some m) ∧ s.id2KeySet m = some e.1

/-- The invariant carried through the calls: no key is stored twice; every live entry has
a non-empty ascending key whose ids are all mapped to its first id, which in turn is
mapped to the key; and `_lid2Id` maps only ids of live entries. -/
def Cache.Inv (s : Cache) : Prop :=
  s.entries.Pairwise (fun e1 e2 => e1.1 ≠ e2.1) ∧
  (∀ e ∈ s.entries, ∃ (first : Nat) (rest : List Nat), e.1.keys = first :: rest ∧
    e.1.keys.Sorted (· ≤ ·) ∧ (∀ id ∈ e.1.keys, s.lid2Id id = some first) ∧
    s.id2KeySet first = some e.1) ∧
  (∀ (id r : Nat), s.lid2Id id = some r →
    ∃ e ∈ s.entries, id ∈ e.1.keys ∧ e.1.keys.head? = some r)

/-- An environment for the examples: the verbatim codec, a store that holds for every lid
a one-byte blob, a capacity of 1000 bytes, and entries accounted with 12 bytes for each
position plus the buffer length. -/
def exampleEnv : Env :=
  ⟨Codec.verbatim, ⟨CompressionType.LZ4, 0⟩, fun lids => lids.map (fun l => (l, [l])),
    1000, fun _ v => 12 * v.positions.length + v.buffer.length⟩

/-- The cache after the reads of `[1, 2]` and of `[3, 4]` in the example environment. -/
def exampleCache : Cache :=
  (VisitCache.run exampleEnv Cache.init [Op.read [1, 2], Op.read [3, 4]]).getD Cache.init

/-- Every cached KeySet is ascending, as is every KeySet that a constructor builds. -/
def Cache.KeysSorted (s : Cache) : Prop :=
  ∀ e ∈ s.entries, e.1.keys.Sorted (· ≤ ·)

/-- The id index `_lid2Id` maps only ids of live entries. -/
def Cache.IndexLive (s : Cache) : Prop :=
  ∀ (id r : Nat), s.lid2Id id = some r → ∃ e ∈ s.entries, id ∈ e.1.keys

/-- The KeySet shares an id with the new key. -/
def KeySet.overlaps (k newKeys : KeySet) : Prop :=
  ∃ id : Nat, id ∈ k.keys ∧ id ∈ newKeys.keys

/-- The cache after the read of `[1, 1]` in the example environment. -/
def repeatedIdCache : Cache :=
  (VisitCache.run exampleEnv Cache.init [Op.read [1, 1]]).getD Cache.init

/-! ## The ordering selector (document/select/orderingselector.cpp) -/

/-- The enumeration `OrderingSpecification::Order`. -/
inductive Order where
  | ASCENDING
  | DESCENDING
  deriving DecidableEq, Repr

/-- The class `OrderingSpecification`, whose header is not among the sources, as the source
uses it: the four constructor arguments, which the four getters return. The numeric
fields are integers. -/
structure OrderingSpecification where
  order : Order
  orderingStart : Int
  widthBits : Int
  divisionBits : Int
  deriving DecidableEq, Repr

/-- The enumeration `IdValueNode::Type`: the source tells `ORDER` from all other types. -/
inductive IdType where
  | ORDER
  | OTHER
  deriving DecidableEq, Repr

/-- The class `IdValueNode`, as the source reads it: type, width bits, division bits. -/
structure IdValueNode where
  type : IdType
  widthBits : Int
  divisionBits : Int
  deriving DecidableEq, Repr

/-- The value nodes, as the two `dynamic_cast`s of the source tell them apart. -/
inductive ValueNode where
  | id (node : IdValueNode)
  | integer (value : Int)
  | other
  deriving DecidableEq, Repr

/-- The comparison operators; the source tests for `EQ`, `LEQ`, `GT`, `GEQ` and `LT`. -/
inductive Operator where
  | EQ
  | NE
  | GT
  | GEQ
  | LT
  | LEQ
  | OTHER
  deriving DecidableEq, Repr

/-- The nodes of a document selection expression that the visitor is called on. -/
inductive Node where
  | And (left right : Node)
  | Or (left right : Node)
  | Not (child : Node)
  | Compare (left right : ValueNode) (op : Operator)
  | Constant
  | InvalidConstant
  | DocType
  deriving Repr

/-- The member `OrderingVisitor::pickOrdering(a, b, isAnd)`; `none` is the empty pointer. -/
def OrderingVisitor.pickOrdering (a b : OrderingSpecification) (isAnd : Bool) :
    Option OrderingSpecification :=
  if a.widthBits = b.widthBits ∧ a.divisionBits = b.divisionBits ∧ a.order = b.order then
    if (a.order = Order.ASCENDING ∧ isAnd = true) ∨
        (a.order = Order.DESCENDING ∧ isAnd = false) then
      some ⟨a.order, max a.orderingStart b.orderingStart, b.widthBits, a.divisionBits⟩
    else
      some ⟨a.order, min a.orderingStart b.orderingStart, b.widthBits, a.divisionBits⟩
  else none

/-- The member `OrderingVisitor::compare(node, valnode, op, order)`, as the new value of
`_spec` for the old one. -/
def OrderingVisitor.compare (spec : Option OrderingSpecification) (node : IdValueNode)
    (valnode : ValueNode) (op : Operator) (order : Order) : Option OrderingSpecification :=
  if node.type ≠ IdType.ORDER then spec
  else if node.widthBits = -1 ∨ node.divisionBits = -1 then spec
  else
    match valnode with
    | ValueNode.integer value =>
      let s1 :=
        if op = Operator.EQ then some ⟨order, value, node.widthBits, node.divisionBits⟩
        else spec
      if order = Order.ASCENDING then
        let s2 :=
          if op = Operator.LEQ then some ⟨order, 0, node.widthBits, node.divisionBits⟩ else s1
        let s3 :=
          if op = Operator.GT then some ⟨order, value + 1, node.widthBits, node.divisionBits⟩
          else s2
        if op = Operator.GEQ then some ⟨order, value, node.widthBits, node.divisionBits⟩
        else s3
      else
        let s2 :=
          if op = Operator.LT then some ⟨order, value - 1, node.widthBits, node.divisionBits⟩
          else s1
        if op = Operator.LEQ then some ⟨order, value, node.widthBits, node.divisionBits⟩
        else s2
    | _ => spec

/-- The visit of a node by an `OrderingVisitor` of the given order: the new value of
`_spec` for the old one. `And` and `Or` are `visitAndBranch` and `visitOrBranch`: the left
branch is visited by a fresh visitor, the right one by this visitor; `Compare` is
`visitComparison`; the other visit methods have empty bodies. -/
def OrderingVisitor.visit (order : Order) :
    Node → Option OrderingSpecification → Option OrderingSpecification
  | Node.And l r, spec =>
    let left := OrderingVisitor.visit order l none
    let spec1 := OrderingVisitor.visit order r spec
    match left with
    | none => spec1
    | some ls =>
      match spec1 with
      | none => some ls
      | some rs => OrderingVisitor.pickOrdering rs ls true
  | Node.Or l r, spec =>
    let left := OrderingVisitor.visit order l none
    let spec1 := OrderingVisitor.visit order r spec
    match left, spec1 with
    | some ls, some rs => OrderingVisitor.pickOrdering rs ls false
    | _, _ => spec1
  | Node.Not _, spec => spec
  | Node.Compare l r op, spec =>
    match l with
    | ValueNode.id lid => OrderingVisitor.compare spec lid r op order
    | _ =>
      match r with
      | ValueNode.id rid => OrderingVisitor.compare spec rid l op order
      | _ => spec
  | Node.Constant, spec => spec
  | Node.InvalidConstant, spec => spec
  | Node.DocType, spec => spec

/-- The member `OrderingSelector::select(expression, order)`. -/
def OrderingSelector.select (expression : Node) (order : Order) :
    Option OrderingSpecification :=
  OrderingVisitor.visit order expression none

/-- The comparison `id.order(10, 10) == 5`. -/
def orderEqFive : Node :=
  Node.Compare (ValueNode.id ⟨IdType.ORDER, 10, 10⟩) (ValueNode.integer 5) Operator.EQ

/-! ## The dense tensor binary format (eval/tensor/serialization/dense_binary_format.cpp) -/

/-- The number of values of `size_t`, in which both functions count the cells: products
are taken modulo this number. -/
def sizeModulus : Nat := 2 ^ 64

/-- The class `eval::ValueType::Dimension`, as the source uses it: a name (a string of
bytes) and a size. -/
structure Dimension where
  name : List Byte
  size : Nat
  deriving DecidableEq, Repr

/-- The primitives of `vespalib::nbostream` that the two functions call; the stream class
is not among the sources. A stream is the sequence of bytes written and not yet read: a
write primitive appends the bytes it produces for its argument, a read primitive takes a
value off the front and leaves the rest, or fails (`none`). -/
structure StreamOps where
  putInt1_4Bytes : Nat → List Byte
  writeSmallString : List Byte → List Byte
  getInt1_4Bytes : List Byte → Option (Nat × List Byte)
  readSmallString : List Byte → Option (List Byte × List Byte)

/-- The assumption on the stream: each read primitive gives back what the matching write
primitive wrote, whatever follows in the stream. -/
def StreamOps.Inverts (ops : StreamOps) : Prop :=
  (∀ (v : Nat) (rest : List Byte),
    ops.getInt1_4Bytes (ops.putInt1_4Bytes v ++ rest) = some (v, rest)) ∧
  (∀ (name rest : List Byte),
    ops.readSmallString (ops.writeSmallString name ++ rest) = some (name, rest))

/-- The function `encodeDimensions(stream, type)` on the dimensions of the type: the stream
afterwards and the cell count returned. -/
def encodeDimensions (ops : StreamOps) (stream : List Byte) (dimensions : List Dimension) :
    List Byte × Nat :=
  dimensions.foldl
    (fun acc dimension =>
      (acc.1 ++ ops.writeSmallString dimension.name ++ ops.putInt1_4Bytes dimension.size,
        (acc.2 * dimension.size) % sizeModulus))
    (stream ++ ops.putInt1_4Bytes dimensions.length, 1)

/-- The loop of `decodeDimensions` with the number of rounds it still makes, which is
`dimensionsSize - dimensions.size()` when the loop is entered: every round adds one
dimension. -/
def decodeDimensionsLoop (ops : StreamOps) :
    Nat → List Byte → List Dimension → Nat → Option (List Byte × List Dimension × Nat)
  | 0, stream, dimensions, cellsSize => some (stream, dimensions, cellsSize)
  | n + 1, stream, dimensions, cellsSize =>
    match ops.readSmallString stream with
    | none => none
    | some (dimensionName, stream1) =>
      match ops.getInt1_4Bytes stream1 with
      | none => none
      | some (dimensionSize, stream2) =>
        decodeDimensionsLoop ops n stream2 (dimensions ++ [⟨dimensionName, dimensionSize⟩])
          ((cellsSize * dimensionSize) % sizeModulus)

/-- The function `decodeDimensions(stream, dimensions)`: the stream afterwards, the vector
afterwards and the cell count returned; `none` when a read fails. -/
def decodeDimensions (ops : StreamOps) (stream : List Byte) (dimensions : List Dimension) :
    Option (List Byte × List Dimension × Nat) :=
  match ops.getInt1_4Bytes stream with
  | none => none
  | some (dimensionsSize, stream1) =>
    decodeDimensionsLoop ops (dimensionsSize - dimensions.length) stream1 dimensions 1

/-- A stream for the examples: an integer is written as one item, a string as its length
followed by its bytes. -/
def exampleStream : StreamOps :=
  ⟨fun v => [v], fun name => name.length :: name,
    fun stream =>
      match stream with
      | [] => none
      | v :: rest => some (v, rest),
    fun stream =>
      match stream with
      | [] => none
      | n :: rest => some (rest.take n, rest.drop n)⟩

/-- Four dimensions of size 65536 each. -/
def bigDimensions : List Dimension :=
  [⟨[119], 65536⟩, ⟨[120], 65536⟩, ⟨[121], 65536⟩, ⟨[122], 65536⟩]

/-! ## KeySet: construction and subset test -/

theorem includes_nil_right (a : List Nat) : includes a [] = true := by
  cases a <;> rfl

/-- On an ascending first range and a strictly ascending second range, `includes` decides
whether every element of the second occurs in the first. -/
theorem includes_iff_forall_mem :
    ∀ (a b : List Nat), a.Sorted (· ≤ ·) → b.Sorted (· < ·) →
      (includes a b = true ↔ ∀ x ∈ b, x ∈ a) := by
  intro a
  induction a with
  | nil =>
    intro b _ _
    cases b with
    | nil => simp [includes]
    | cons y bs =>
      constructor
      · intro h
        simp [includes] at h
      · intro h
        exact absurd (h y (List.mem_cons_self _ _)) (List.not_mem_nil _)
  | cons x as ih =>
    intro b ha hb
    cases b with
    | nil => simp [includes]
    | cons y bs =>
      have hxa : ∀ z ∈ as, x ≤ z := List.rel_of_sorted_cons ha
      have hyb : ∀ z ∈ bs, y < z := List.rel_of_sorted_cons hb
      have has : as.Sorted (· ≤ ·) := List.Sorted.of_cons ha
      have hbs : bs.Sorted (· < ·) := List.Sorted.of_cons hb
      by_cases h1 : y < x
      · have hy : y ∉ x :: as := by
          intro hmem
          rcases List.mem_cons.1 hmem with h | h
          · omega
          · have := hxa y h
            omega
        simp only [includes, h1, if_true]
        constructor
        · intro h
          exact absurd h (by simp)
        · intro h
          exact absurd (h y (List.mem_cons_self _ _)) hy
      · by_cases h2 : x < y
        · simp only [includes, h1, h2, if_true, if_false]
          rw [ih (y :: bs) has hb]
          constructor
          · intro h z hz
            exact List.mem_cons_of_mem _ (h z hz)
          · intro h z hz
            rcases List.mem_cons.1 (h z hz) with h3 | h3
            · rcases List.mem_cons.1 hz with h4 | h4
              · omega
              · have := hyb z h4
                omega
            · exact h3
        · have hxy : x = y := by omega
          subst hxy
          simp only [includes, h1, if_false]
          rw [ih bs has hbs]
          constructor
          · intro h z hz
            rcases List.mem_cons.1 hz with h4 | h4
            · rw [h4]
              exact List.mem_cons_self _ _
            · exact List.mem_cons_of_mem _ (h z h4)
          · intro h z hz
            rcases List.mem_cons.1 (h z (List.mem_cons_of_mem _ hz)) with h3 | h3
            · have := hyb z hz
              omega
            · exact h3

theorem sorted_lt_insertionSort_of_nodup (l : List Nat) (h : l.Nodup) :
    (l.insertionSort (· ≤ ·)).Sorted (· < ·) := by
  have hs : (l.insertionSort (· ≤ ·)).Sorted (· ≤ ·) := List.sorted_insertionSort _ l
  have hn : (l.insertionSort (· ≤ ·)).Nodup := (List.perm_insertionSort _ l).nodup_iff.2 h
  exact hs.lt_of_le hn

/-- C3: the key sequence of the KeySet built from any collection of ids is ascending and a
permutation of the collection: every id occurs in it as often as in the input. -/
theorem KeySet.ofLids_sorted_perm (lids : List Nat) :
    (KeySet.ofLids lids).keys.Sorted (· ≤ ·) ∧
    (KeySet.ofLids lids).keys.Perm lids ∧
    ∀ id : Nat, (KeySet.ofLids lids).keys.count id = lids.count id := by
  refine ⟨List.sorted_insertionSort _ lids, List.perm_insertionSort _ lids, ?_⟩
  intro id
  exact (List.perm_insertionSort _ lids).count_eq id

/-- C2: for duplicate-free collections `A` and `B`, given in any order,
`KeySet(A).contains(KeySet(B))` holds exactly when every id of `B` is an id of `A`. -/
theorem KeySet.contains_iff_subset (A B : List Nat) (_hA : A.Nodup) (hB : B.Nodup) :
    (KeySet.ofLids A).contains (KeySet.ofLids B) = true ↔ ∀ id ∈ B, id ∈ A := by
  have hsA : (A.insertionSort (· ≤ ·)).Sorted (· ≤ ·) := List.sorted_insertionSort _ A
  have hsB := sorted_lt_insertionSort_of_nodup B hB
  unfold KeySet.contains KeySet.ofLids
  rw [includes_iff_forall_mem _ _ hsA hsB]
  simp only [List.mem_insertionSort]

theorem KeySet.contains_iff_subset_witness :
    [3, 1, 2].Nodup ∧ [2, 3].Nodup ∧
    ((KeySet.ofLids [3, 1, 2]).contains (KeySet.ofLids [2, 3]) = true ↔
      ∀ id ∈ [2, 3], id ∈ [3, 1, 2]) :=
  ⟨by decide, by decide, KeySet.contains_iff_subset [3, 1, 2] [2, 3] (by decide) (by decide)⟩

/-! ## BlobSet: appends and lookups -/

theorem getBufferSize_append_one (p : List LidPosition) (x : LidPosition) :
    getBufferSize (p ++ [x]) = x.offset + x.size := by
  simp [getBufferSize]

theorem getBufferSize_layout (pre : List LidPosition) (off : Nat)
    (h : getBufferSize pre = off) :
    ∀ calls : List (Nat × List Byte),
      getBufferSize (pre ++ BlobSet.layout off calls) =
        off + (calls.map (fun c => c.2)).flatten.length := by
  intro calls
  induction calls generalizing pre off with
  | nil => simp [BlobSet.layout, h]
  | cons c rest ih =>
    have h1 : getBufferSize ((pre ++ [⟨c.1, off, c.2.length⟩])) = off + c.2.length :=
      getBufferSize_append_one _ _
    have h2 := ih (pre ++ [⟨c.1, off, c.2.length⟩]) (off + c.2.length) h1
    simp only [BlobSet.layout, List.map_cons, List.flatten_cons, List.length_append]
    rw [List.append_assoc] at h2
    simp only [List.singleton_append] at h2
    rw [h2]
    omega

/-- Closed form of a run of appends on a BlobSet whose buffer length agrees with its
position table. -/
theorem BlobSet.appendAll_eq (calls : List (Nat × List Byte)) :
    ∀ b : BlobSet, getBufferSize b.positions = b.buffer.length →
      b.appendAll calls =
        ⟨b.positions ++ BlobSet.layout b.buffer.length calls,
          b.buffer ++ (calls.map (fun c => c.2)).flatten⟩ := by
  induction calls with
  | nil =>
    intro b _
    simp [BlobSet.appendAll, BlobSet.layout]
  | cons c rest ih =>
    intro b hb
    have h1 : getBufferSize (b.append c.1 c.2).positions = (b.append c.1 c.2).buffer.length := by
      simp [BlobSet.append, getBufferSize_append_one, hb]
    have h2 := ih (b.append c.1 c.2) h1
    have h3 : b.appendAll (c :: rest) = (b.append c.1 c.2).appendAll rest := by
      simp [BlobSet.appendAll]
    rw [h3, h2]
    simp [BlobSet.append, BlobSet.layout, hb]

theorem BlobSet.empty_appendAll_eq (calls : List (Nat × List Byte)) :
    BlobSet.empty.appendAll calls =
      ⟨BlobSet.layout 0 calls, (calls.map (fun c => c.2)).flatten⟩ := by
  have h := BlobSet.appendAll_eq calls BlobSet.empty (by simp [BlobSet.empty, getBufferSize])
  simpa [BlobSet.empty] using h

/-- A BlobSet built by appends has a buffer exactly as long as its table says. -/
theorem BlobSet.getBufferSize_appendAll (calls : List (Nat × List Byte)) :
    getBufferSize (BlobSet.empty.appendAll calls).positions =
      (BlobSet.empty.appendAll calls).buffer.length := by
  rw [BlobSet.empty_appendAll_eq]
  have h := getBufferSize_layout [] 0 (by simp [getBufferSize]) calls
  simpa using h

theorem BlobSet.scan_layout (id : Nat) (calls : List (Nat × List Byte)) :
    ∀ pre : List Byte,
      BlobSet.scan (pre ++ (calls.map (fun c => c.2)).flatten) id
        (BlobSet.layout pre.length calls) = firstPayload id calls := by
  induction calls with
  | nil =>
    intro pre
    simp [BlobSet.layout, BlobSet.scan, firstPayload]
  | cons c rest ih =>
    intro pre
    by_cases hc : c.1 = id
    · simp [BlobSet.layout, BlobSet.scan, firstPayload, hc]
    · have h := ih (pre ++ c.2)
      simp only [List.length_append, List.append_assoc] at h
      simp [BlobSet.layout, BlobSet.scan, firstPayload, hc, h]

theorem firstPayload_of_mem (calls : List (Nat × List Byte))
    (hn : (calls.map (fun c => c.1)).Nodup) :
    ∀ c ∈ calls, firstPayload c.1 calls = c.2 := by
  induction calls with
  | nil =>
    intro c hc
    cases hc
  | cons d rest ih =>
    intro c hc
    rw [List.map_cons] at hn
    have hn' := List.nodup_cons.1 hn
    rcases List.mem_cons.1 hc with h | h
    · subst h
      simp [firstPayload]
    · have hne : d.1 ≠ c.1 := by
        intro heq
        apply hn'.1
        rw [heq]
        exact List.mem_map_of_mem (fun c => c.1) h
      simp only [firstPayload, hne, if_false]
      exact ih hn'.2 c h

theorem firstPayload_of_forall_ne (id : Nat) (calls : List (Nat × List Byte))
    (h : ∀ c ∈ calls, c.1 ≠ id) : firstPayload id calls = [] := by
  induction calls with
  | nil => rfl
  | cons d rest ih =>
    have hd : d.1 ≠ id := h d (List.mem_cons_self _ _)
    simp only [firstPayload, hd, if_false]
    exact ih (fun c hc => h c (List.mem_cons_of_mem _ hc))

/-- C10: after any sequence of appends on an empty BlobSet, `get(id)` is the payload of the
first appended pair with that id, and empty when there is none; with pairwise distinct
ids every appended payload is returned unchanged. -/
theorem BlobSet.get_appendAll (calls : List (Nat × List Byte)) :
    (∀ id : Nat, (BlobSet.empty.appendAll calls).get id = firstPayload id calls) ∧
    (∀ id : Nat, (∀ c ∈ calls, c.1 ≠ id) → (BlobSet.empty.appendAll calls).get id = []) ∧
    ((calls.map (fun c => c.1)).Nodup →
      ∀ c ∈ calls, (BlobSet.empty.appendAll calls).get c.1 = c.2) := by
  have hget : ∀ id : Nat, (BlobSet.empty.appendAll calls).get id = firstPayload id calls := by
    intro id
    rw [BlobSet.empty_appendAll_eq]
    have h := BlobSet.scan_layout id calls []
    simpa [BlobSet.get] using h
  refine ⟨hget, ?_, ?_⟩
  · intro id hid
    rw [hget]
    exact firstPayload_of_forall_ne id calls hid
  · intro hn c hc
    rw [hget]
    exact firstPayload_of_mem calls hn c hc

theorem BlobSet.get_appendAll_witness :
    (BlobSet.empty.appendAll [(5, [97]), (9, [98, 98]), (5, [99])]).get 5 = [97] ∧
    (BlobSet.empty.appendAll [(5, [97]), (9, [98, 98]), (5, [99])]).get 7 = [] ∧
    (BlobSet.empty.appendAll [(5, [97]), (9, [98, 98])]).get 9 = [98, 98] :=
  ⟨(BlobSet.get_appendAll [(5, [97]), (9, [98, 98]), (5, [99])]).1 5,
   (BlobSet.get_appendAll [(5, [97]), (9, [98, 98]), (5, [99])]).2.1 7 (by decide),
   (BlobSet.get_appendAll [(5, [97]), (9, [98, 98])]).2.2 (by decide) (9, [98, 98])
     (by decide)⟩

/-! ## CompressedBlobSet: round trip and the empty case -/

/-- C1: for a BlobSet built by appends and any configuration, when the codec's decompress
inverts its compress, `CompressedBlobSet(config, b).getBlobSet()` is `b` itself (same
positions, same buffer bytes), so its `get(id)` agrees with `b.get(id)` for every id. -/
theorem CompressedBlobSet.getBlobSet_ofBlobSet (codec : Codec) (cfg : CompressionConfig)
    (calls : List (Nat × List Byte)) (hc : codec.Inverts) :
    (CompressedBlobSet.ofBlobSet codec cfg (BlobSet.empty.appendAll calls)).getBlobSet codec
        = BlobSet.empty.appendAll calls ∧
    ∀ id : Nat,
      ((CompressedBlobSet.ofBlobSet codec cfg (BlobSet.empty.appendAll calls)).getBlobSet
        codec).get id = (BlobSet.empty.appendAll calls).get id := by
  have hsize := BlobSet.getBufferSize_appendAll calls
  have key : (CompressedBlobSet.ofBlobSet codec cfg (BlobSet.empty.appendAll calls)).getBlobSet
      codec = BlobSet.empty.appendAll calls := by
    generalize BlobSet.empty.appendAll calls = b at hsize
    obtain ⟨ps, buf⟩ := b
    simp only at hsize
    cases ps with
    | nil =>
      have hbuf : buf = [] := by
        apply List.eq_nil_of_length_eq_zero
        rw [← hsize]
        rfl
      subst hbuf
      rfl
    | cons p ps =>
      have h := hc cfg buf
      simp only [CompressedBlobSet.ofBlobSet, CompressedBlobSet.getBlobSet, BlobSet.getPositions,
        BlobSet.getBuffer, BlobSet.ofAlloc, List.isEmpty_cons, Bool.false_eq_true, if_false]
      rw [hsize, h, List.take_length]
      simp
  refine ⟨key, ?_⟩
  intro id
  rw [key]

theorem CompressedBlobSet.getBlobSet_ofBlobSet_witness :
    Codec.verbatim.Inverts ∧
    (CompressedBlobSet.ofBlobSet Codec.verbatim ⟨CompressionType.LZ4, 9⟩
        (BlobSet.empty.appendAll [(5, [97]), (9, [98, 98])])).getBlobSet Codec.verbatim
      = BlobSet.empty.appendAll [(5, [97]), (9, [98, 98])] :=
  ⟨fun _ _ => rfl,
   (CompressedBlobSet.getBlobSet_ofBlobSet Codec.verbatim ⟨CompressionType.LZ4, 9⟩
      [(5, [97]), (9, [98, 98])] (fun _ _ => rfl)).1⟩

/-- C9, as stated, fails: built from a configuration of type `NONE` and the empty BlobSet,
the CompressedBlobSet carries the tag `NONE`, the default-constructed one the tag `LZ4`. -/
theorem CompressedBlobSet.empty_tag_ne_default :
    CompressedBlobSet.ofBlobSet Codec.verbatim ⟨CompressionType.NONE, 0⟩ BlobSet.empty
      ≠ CompressedBlobSet.default := by
  decide

/-- C9, amended: built from any configuration and a BlobSet without positions, the
CompressedBlobSet has the positions and the buffer of the default-constructed one (none,
empty) and the configured type as its tag, whatever the codec is; it equals the
default-constructed one exactly when the configured type is `LZ4`. -/
theorem CompressedBlobSet.ofBlobSet_empty (codec : Codec) (cfg : CompressionConfig)
    (b : BlobSet) (hb : b.positions = []) :
    CompressedBlobSet.ofBlobSet codec cfg b = ⟨cfg.type, [], []⟩ ∧
    (CompressedBlobSet.ofBlobSet codec cfg b).positions = CompressedBlobSet.default.positions ∧
    (CompressedBlobSet.ofBlobSet codec cfg b).buffer = CompressedBlobSet.default.buffer ∧
    (CompressedBlobSet.ofBlobSet codec cfg b).compression = cfg.type ∧
    (∀ other : Codec,
      CompressedBlobSet.ofBlobSet other cfg b = CompressedBlobSet.ofBlobSet codec cfg b) ∧
    (CompressedBlobSet.ofBlobSet codec cfg b = CompressedBlobSet.default ↔
      cfg.type = CompressionType.LZ4) := by
  have h : ∀ c : Codec, CompressedBlobSet.ofBlobSet c cfg b = ⟨cfg.type, [], []⟩ := by
    intro c
    simp [CompressedBlobSet.ofBlobSet, BlobSet.getPositions, hb]
  refine ⟨h codec, ?_, ?_, ?_, ?_, ?_⟩
  · rw [h codec]
    rfl
  · rw [h codec]
    rfl
  · rw [h codec]
  · intro other
    rw [h other, h codec]
  · rw [h codec]
    simp [CompressedBlobSet.default]

theorem CompressedBlobSet.ofBlobSet_empty_witness :
    BlobSet.empty.positions = [] ∧
    CompressedBlobSet.ofBlobSet Codec.verbatim ⟨CompressionType.NONE, 0⟩ BlobSet.empty
      = ⟨CompressionType.NONE, [], []⟩ :=
  ⟨rfl, (CompressedBlobSet.ofBlobSet_empty Codec.verbatim ⟨CompressionType.NONE, 0⟩
      BlobSet.empty rfl).1⟩

/-! ## VisitCache: reads of no ids -/

/-- C8: on every cache state, `read` of an empty id collection returns the canonical empty
CompressedBlobSet (no positions, empty buffer) and leaves the whole state as it was:
entries, index maps, byte total, hit and miss counters. -/
theorem VisitCache.read_nil (env : Env) (s : Cache) :
    VisitCache.read env s [] = some (CompressedBlobSet.default, s) ∧
    CompressedBlobSet.default.positions = [] ∧
    CompressedBlobSet.default.buffer = [] ∧
    VisitCache.step env s (Op.read []) = some s ∧
    ∀ r : CompressedBlobSet × Cache, VisitCache.read env s [] = some r →
      r.1.positions = [] ∧ r.1.buffer = [] ∧ r.2.entries = s.entries ∧
      r.2.lid2Id = s.lid2Id ∧ r.2.id2KeySet = s.id2KeySet ∧ r.2.sizeBytes = s.sizeBytes ∧
      r.2.hit = s.hit ∧ r.2.miss = s.miss := by
  have h : VisitCache.read env s [] = some (CompressedBlobSet.default, s) := rfl
  refine ⟨h, rfl, rfl, rfl, ?_⟩
  intro r hr
  rw [h] at hr
  have hr2 := Option.some.inj hr
  rw [← hr2]
  exact ⟨rfl, rfl, rfl, rfl, rfl, rfl, rfl, rfl⟩

theorem VisitCache.read_nil_witness :
    VisitCache.read exampleEnv exampleCache [] = some (CompressedBlobSet.default, exampleCache) ∧
    (VisitCache.getCacheStats exampleCache).misses = 2 :=
  ⟨(VisitCache.read_nil exampleEnv exampleCache).1, rfl⟩

/-! ## The subset index: lookups after the hooks -/

theorem foldl_mapErase {V : Type} (keys : List Nat) :
    ∀ (m : Nat → Option V) (x : Nat),
      (keys.foldl (fun m k => mapErase m k) m) x = if x ∈ keys then none else m x := by
  induction keys with
  | nil =>
    intro m x
    simp
  | cons k ks ih =>
    intro m x
    rw [List.foldl_cons, ih]
    by_cases h1 : x ∈ ks
    · simp [h1]
    · by_cases h2 : x = k
      · simp [h1, h2, mapErase]
      · simp [h1, h2, mapErase]

theorem foldl_mapSet {V : Type} (v : V) (keys : List Nat) :
    ∀ (m : Nat → Option V) (x : Nat),
      (keys.foldl (fun m k => mapSet m k v) m) x = if x ∈ keys then some v else m x := by
  induction keys with
  | nil =>
    intro m x
    simp
  | cons k ks ih =>
    intro m x
    rw [List.foldl_cons, ih]
    by_cases h1 : x ∈ ks
    · simp [h1]
    · by_cases h2 : x = k
      · simp [h1, h2, mapSet]
      · simp [h1, h2, mapSet]

theorem Cache.lookup_some {s : Cache} {key : KeySet} {e : KeySet × CompressedBlobSet}
    (h : s.lookup key = some e) : e ∈ s.entries ∧ e.1 = key := by
  unfold Cache.lookup at h
  have h1 := List.find?_some h
  exact ⟨List.mem_of_find?_eq_some h, by simpa using h1⟩

theorem Cache.lookup_none {s : Cache} {key : KeySet} (h : s.lookup key = none) :
    ∀ e ∈ s.entries, e.1 ≠ key := by
  unfold Cache.lookup at h
  intro e he
  have h1 := List.find?_eq_none.1 h e he
  simpa using h1

theorem Cache.lookup_of_mem {s : Cache} {e : KeySet × CompressedBlobSet} (he : e ∈ s.entries) :
    ∃ e2, s.lookup e.1 = some e2 := by
  cases h : s.lookup e.1 with
  | none => exact absurd rfl (Cache.lookup_none h e he)
  | some e2 => exact ⟨e2, rfl⟩

theorem Cache.invalidate_entries (env : Env) (s : Cache) (key : KeySet) :
    (Cache.invalidate env s key).entries = s.entries.filter (fun x => x.1 ≠ key) := by
  unfold Cache.invalidate
  cases h : s.lookup key with
  | none =>
    symm
    apply List.filter_eq_self.2
    intro a ha
    simpa using Cache.lookup_none h a ha
  | some e => simp [Cache.onRemove]

theorem Cache.invalidate_counters (env : Env) (s : Cache) (key : KeySet) :
    (Cache.invalidate env s key).hit = s.hit ∧ (Cache.invalidate env s key).miss = s.miss := by
  unfold Cache.invalidate
  cases h : s.lookup key with
  | none => simp
  | some e => simp [Cache.onRemove]

theorem Cache.invalidate_lid2Id {env : Env} {s : Cache} {key : KeySet}
    {e : KeySet × CompressedBlobSet} (h : s.lookup key = some e) (x : Nat) :
    (Cache.invalidate env s key).lid2Id x = if x ∈ key.keys then none else s.lid2Id x := by
  unfold Cache.invalidate
  simp only [h, Cache.onRemove]
  exact foldl_mapErase key.keys s.lid2Id x

theorem Cache.invalidate_id2KeySet {env : Env} {s : Cache} {key : KeySet}
    {e : KeySet × CompressedBlobSet} (h : s.lookup key = some e) {first : Nat}
    {rest : List Nat} (hk : key.keys = first :: rest) (x : Nat) :
    (Cache.invalidate env s key).id2KeySet x = if x = first then none else s.id2KeySet x := by
  unfold Cache.invalidate
  simp only [h, Cache.onRemove, hk, List.head?_cons]
  rfl

theorem Cache.invalidate_of_absent {env : Env} {s : Cache} {key : KeySet}
    (h : s.lookup key = none) : Cache.invalidate env s key = s := by
  unfold Cache.invalidate
  simp [h]

/-- Two live entries that share an id have the same key. -/
theorem Cache.Inv.same_key {s : Cache} (h : s.Inv) {e1 e2 : KeySet × CompressedBlobSet}
    (h1 : e1 ∈ s.entries) (h2 : e2 ∈ s.entries) {id : Nat} (hi1 : id ∈ e1.1.keys)
    (hi2 : id ∈ e2.1.keys) : e1.1 = e2.1 := by
  obtain ⟨f1, r1, _, _, hl1, hk1⟩ := h.2.1 e1 h1
  obtain ⟨f2, r2, _, _, hl2, hk2⟩ := h.2.1 e2 h2
  have hf : f1 = f2 := by
    have := (hl1 id hi1).symm.trans (hl2 id hi2)
    exact Option.some.inj this
  subst hf
  have := hk1.symm.trans hk2
  exact Option.some.inj this

/-- Removing an entry keeps the invariant. -/
theorem Cache.Inv.invalidate {s : Cache} (h : s.Inv) (env : Env) (key : KeySet) :
    (Cache.invalidate env s key).Inv := by
  cases hl : s.lookup key with
  | none =>
    rw [Cache.invalidate_of_absent hl]
    exact h
  | some e0 =>
    obtain ⟨he0, hkey⟩ := Cache.lookup_some hl
    obtain ⟨f0, r0, hk0, _, _, _⟩ := h.2.1 e0 he0
    rw [hkey] at hk0
    refine ⟨?_, ?_, ?_⟩
    · rw [Cache.invalidate_entries]
      exact List.Pairwise.filter _ h.1
    · intro e he
      rw [Cache.invalidate_entries] at he
      obtain ⟨he1, he2⟩ := List.mem_filter.1 he
      have hne : e.1 ≠ key := by simpa using he2
      obtain ⟨f, r, hk, hs, hl1, hk1⟩ := h.2.1 e he1
      have hdis : ∀ id ∈ e.1.keys, id ∉ key.keys := by
        intro id hid hid2
        apply hne
        rw [← hkey]
        exact h.same_key he1 he0 hid (by rw [hkey]; exact hid2)
      have hfmem : f ∈ e.1.keys := by
        rw [hk]
        exact List.mem_cons_self _ _
      refine ⟨f, r, hk, hs, ?_, ?_⟩
      · intro id hid
        rw [Cache.invalidate_lid2Id hl, if_neg (hdis id hid)]
        exact hl1 id hid
      · rw [Cache.invalidate_id2KeySet hl hk0]
        have hff : f ≠ f0 := by
          intro heq
          apply hdis f hfmem
          rw [heq, hk0]
          exact List.mem_cons_self _ _
        rw [if_neg hff]
        exact hk1
    · intro id r hid
      rw [Cache.invalidate_lid2Id hl] at hid
      by_cases hmem : id ∈ key.keys
      · rw [if_pos hmem] at hid
        cases hid
      · rw [if_neg hmem] at hid
        obtain ⟨e, he, hie, hhe⟩ := h.2.2 id r hid
        refine ⟨e, ?_, hie, hhe⟩
        rw [Cache.invalidate_entries]
        apply List.mem_filter.2
        refine ⟨he, ?_⟩
        have : e.1 ≠ key := by
          intro heq
          apply hmem
          rw [← heq]
          exact hie
        simpa using this

theorem Cache.invalidate_entries_subset (env : Env) (s : Cache) (key : KeySet) :
    ∀ e ∈ (Cache.invalidate env s key).entries, e ∈ s.entries := by
  intro e he
  rw [Cache.invalidate_entries] at he
  exact (List.mem_filter.1 he).1

theorem Cache.evict_inv (env : Env) (older : List (KeySet × CompressedBlobSet)) :
    ∀ s : Cache, s.Inv → (Cache.evict env older s).Inv := by
  induction older with
  | nil =>
    intro s h
    exact h
  | cons e rest ih =>
    intro s h
    unfold Cache.evict
    by_cases hc : s.sizeBytes ≤ env.maxBytes
    · rw [if_pos hc]
      exact h
    · rw [if_neg hc]
      exact ih _ (h.invalidate env e.1)

theorem Cache.evict_counters (env : Env) (older : List (KeySet × CompressedBlobSet)) :
    ∀ s : Cache, (Cache.evict env older s).hit = s.hit ∧
      (Cache.evict env older s).miss = s.miss := by
  induction older with
  | nil =>
    intro s
    exact ⟨rfl, rfl⟩
  | cons e rest ih =>
    intro s
    unfold Cache.evict
    by_cases hc : s.sizeBytes ≤ env.maxBytes
    · rw [if_pos hc]
      exact ⟨rfl, rfl⟩
    · rw [if_neg hc]
      have h1 := ih (Cache.invalidate env s e.1)
      have h2 := Cache.invalidate_counters env s e.1
      exact ⟨h1.1.trans h2.1, h1.2.trans h2.2⟩

theorem Cache.onInsert_lid2Id (s : Cache) (key : KeySet) {first : Nat} {rest : List Nat}
    (hk : key.keys = first :: rest) (x : Nat) :
    (Cache.onInsert s key).lid2Id x = if x ∈ key.keys then some first else s.lid2Id x := by
  unfold Cache.onInsert
  simp only [hk, List.head?_cons]
  exact foldl_mapSet first (first :: rest) s.lid2Id x

theorem Cache.onInsert_id2KeySet (s : Cache) (key : KeySet) {first : Nat} {rest : List Nat}
    (hk : key.keys = first :: rest) (x : Nat) :
    (Cache.onInsert s key).id2KeySet x = if x = first then some key else s.id2KeySet x := by
  unfold Cache.onInsert
  simp only [hk, List.head?_cons]
  rfl

theorem Cache.onInsert_rest (s : Cache) (key : KeySet) :
    (Cache.onInsert s key).entries = s.entries ∧ (Cache.onInsert s key).hit = s.hit ∧
    (Cache.onInsert s key).miss = s.miss ∧ (Cache.onInsert s key).sizeBytes = s.sizeBytes := by
  unfold Cache.onInsert
  cases key.keys.head? <;> simp

/-- A new entry whose ids are all unmapped keeps the invariant. -/
theorem Cache.Inv.insert {s : Cache} (h : s.Inv) (env : Env) (key : KeySet)
    (value : CompressedBlobSet) {first : Nat} {rest : List Nat}
    (hk : key.keys = first :: rest) (hs : key.keys.Sorted (· ≤ ·))
    (hfree : ∀ id ∈ key.keys, s.lid2Id id = none) :
    (Cache.insert env s key value).Inv := by
  unfold Cache.insert
  apply Cache.evict_inv
  have hent := (Cache.onInsert_rest s key).1
  have hfirst : first ∈ key.keys := by
    rw [hk]
    exact List.mem_cons_self _ _
  have hold : ∀ e ∈ s.entries, ∀ id ∈ e.1.keys, id ∉ key.keys := by
    intro e he id hid hid2
    obtain ⟨f, r, _, _, hl1, _⟩ := h.2.1 e he
    have := (hl1 id hid).symm.trans (hfree id hid2)
    cases this
  refine ⟨?_, ?_, ?_⟩
  · simp only [hent]
    apply List.pairwise_cons.2
    refine ⟨?_, h.1⟩
    intro e he heq
    obtain ⟨f, r, hkf, _, _, _⟩ := h.2.1 e he
    apply hold e he f
    · rw [hkf]
      exact List.mem_cons_self _ _
    · simp only at heq
      rw [heq, hkf]
      exact List.mem_cons_self _ _
  · intro e he
    simp only [hent] at he
    rcases List.mem_cons.1 he with he1 | he1
    · subst he1
      refine ⟨first, rest, hk, hs, ?_, ?_⟩
      · intro id hid
        show (Cache.onInsert s key).lid2Id id = some first
        rw [Cache.onInsert_lid2Id s key hk, if_pos hid]
      · show (Cache.onInsert s key).id2KeySet first = some key
        rw [Cache.onInsert_id2KeySet s key hk, if_pos rfl]
    · obtain ⟨f, r, hkf, hsf, hl1, hk1⟩ := h.2.1 e he1
      refine ⟨f, r, hkf, hsf, ?_, ?_⟩
      · intro id hid
        show (Cache.onInsert s key).lid2Id id = some f
        rw [Cache.onInsert_lid2Id s key hk, if_neg (hold e he1 id hid)]
        exact hl1 id hid
      · show (Cache.onInsert s key).id2KeySet f = some e.1
        have hff : f ≠ first := by
          intro heq
          apply hold e he1 f
          · rw [hkf]
            exact List.mem_cons_self _ _
          · rw [heq]
            exact hfirst
        rw [Cache.onInsert_id2KeySet s key hk, if_neg hff]
        exact hk1
  · intro id r hid
    have hid2 : (Cache.onInsert s key).lid2Id id = some r := hid
    rw [Cache.onInsert_lid2Id s key hk] at hid2
    simp only [hent]
    by_cases hmem : id ∈ key.keys
    · rw [if_pos hmem] at hid2
      refine ⟨(key, value), List.mem_cons_self _ _, hmem, ?_⟩
      simp only [hk, List.head?_cons]
      exact hid2
    · rw [if_neg hmem] at hid2
      obtain ⟨e, he, hie, hhe⟩ := h.2.2 id r hid2
      exact ⟨e, List.mem_cons_of_mem _ he, hie, hhe⟩

theorem Cache.insert_counters (env : Env) (s : Cache) (key : KeySet)
    (value : CompressedBlobSet) :
    (Cache.insert env s key value).hit = s.hit ∧
    (Cache.insert env s key value).miss = s.miss := by
  unfold Cache.insert
  have h1 := Cache.evict_counters env (Cache.onInsert s key).entries.reverse
    { Cache.onInsert s key with
      entries := (key, value) :: (Cache.onInsert s key).entries
      sizeBytes := (Cache.onInsert s key).sizeBytes + env.sizeOf key value }
  have h2 := Cache.onInsert_rest s key
  exact ⟨h1.1.trans h2.2.1, h1.2.trans h2.2.2.1⟩

/-! ## The overlap scan -/

theorem IdSet.mem_insert (found : List Nat) (id x : Nat) :
    x ∈ IdSet.insert found id ↔ x = id ∨ x ∈ found := by
  unfold IdSet.insert
  by_cases h : id ∈ found
  · rw [if_pos h]
    constructor
    · intro hx
      exact Or.inr hx
    · intro hx
      rcases hx with hx | hx
      · rw [hx]
        exact h
      · exact hx
  · rw [if_neg h]
    exact List.mem_orderedInsert _

theorem mem_foldl_findSets (lid2Id : Nat → Option Nat) (keys : List Nat) :
    ∀ (init : List Nat) (r : Nat),
      r ∈ keys.foldl
          (fun found subKey =>
            match lid2Id subKey with
            | some id => IdSet.insert found id
            | none => found)
          init ↔
      r ∈ init ∨ ∃ id ∈ keys, lid2Id id = some r := by
  induction keys with
  | nil =>
    intro init r
    simp
  | cons k ks ih =>
    intro init r
    rw [List.foldl_cons, ih]
    cases hk : lid2Id k with
    | none =>
      simp only [List.mem_cons]
      constructor
      · rintro (h | ⟨id, hid, hr⟩)
        · exact Or.inl h
        · exact Or.inr ⟨id, Or.inr hid, hr⟩
      · rintro (h | ⟨id, hid, hr⟩)
        · exact Or.inl h
        · rcases hid with hid | hid
          · rw [hid, hk] at hr
            cases hr
          · exact Or.inr ⟨id, hid, hr⟩
    | some v =>
      simp only [List.mem_cons, IdSet.mem_insert]
      constructor
      · rintro ((h | h) | ⟨id, hid, hr⟩)
        · exact Or.inr ⟨k, Or.inl rfl, by rw [hk, h]⟩
        · exact Or.inl h
        · exact Or.inr ⟨id, Or.inr hid, hr⟩
      · rintro (h | ⟨id, hid, hr⟩)
        · exact Or.inl (Or.inr h)
        · rcases hid with hid | hid
          · rw [hid, hk] at hr
            exact Or.inl (Or.inl (Option.some.inj hr).symm)
          · exact Or.inr ⟨id, hid, hr⟩

/-- The representatives found are those to which `_lid2Id` maps some id of the key. -/
theorem Cache.mem_findSetsContaining (s : Cache) (keys : KeySet) (r : Nat) :
    r ∈ s.findSetsContaining keys ↔ ∃ id ∈ keys.keys, s.lid2Id id = some r := by
  unfold Cache.findSetsContaining
  rw [mem_foldl_findSets]
  simp

/-- Under the invariant, a completed overlap scan leaves the invariant in place, no id of
the new key mapped, the counters untouched and no entry added. -/
theorem Cache.locate_spec {s : Cache} (h : s.Inv) (env : Env) (key : KeySet) (s1 : Cache)
    (hl : Cache.locateAndInvalidateOtherSubsets env s key = some s1) :
    s1.Inv ∧ (∀ id ∈ key.keys, s1.lid2Id id = none) ∧ s1.hit = s.hit ∧ s1.miss = s.miss ∧
    (∀ e ∈ s1.entries, e ∈ s.entries) := by
  simp only [Cache.locateAndInvalidateOtherSubsets] at hl
  by_cases hlen : (s.findSetsContaining key).length ≤ 1
  · rw [if_pos hlen] at hl
    cases hh : (s.findSetsContaining key).head? with
    | none =>
      rw [hh] at hl
      have hs1 : s = s1 := Option.some.inj hl
      subst hs1
      have hnil : s.findSetsContaining key = [] := List.head?_eq_none_iff.1 hh
      refine ⟨h, ?_, rfl, rfl, fun e he => he⟩
      intro id hid
      cases hx : s.lid2Id id with
      | none => rfl
      | some r =>
        have hr : r ∈ s.findSetsContaining key :=
          (Cache.mem_findSetsContaining s key r).2 ⟨id, hid, hx⟩
        rw [hnil] at hr
        cases hr
    | some R =>
      rw [hh] at hl
      obtain ⟨tl, htl⟩ := List.head?_eq_some_iff.1 hh
      have htl2 : tl = [] := by
        rw [htl] at hlen
        simp only [List.length_cons] at hlen
        apply List.eq_nil_of_length_eq_zero
        omega
      subst htl2
      have hall : ∀ r, r ∈ s.findSetsContaining key → r = R := by
        intro r hr
        rw [htl] at hr
        simpa using hr
      have hR : R ∈ s.findSetsContaining key := by
        rw [htl]
        exact List.mem_cons_self _ _
      obtain ⟨id0, hid0, hx0⟩ := (Cache.mem_findSetsContaining s key R).1 hR
      obtain ⟨e, he, hie, hhe⟩ := h.2.2 id0 R hx0
      obtain ⟨f, r, hkf, _, _, hk1⟩ := h.2.1 e he
      have hfR : f = R := by
        rw [hkf] at hhe
        simpa using hhe
      subst hfR
      have hat : s.id2KeySetAt f = (e.1, s) := by
        unfold Cache.id2KeySetAt
        rw [hk1]
      simp only [hat] at hl
      by_cases hc : key.contains e.1 = true
      · simp only [hc, if_true] at hl
        have hs1 : Cache.invalidate env s e.1 = s1 := Option.some.inj hl
        subst hs1
        obtain ⟨e2, hlook⟩ := Cache.lookup_of_mem he
        refine ⟨h.invalidate env e.1, ?_, (Cache.invalidate_counters env s e.1).1,
          (Cache.invalidate_counters env s e.1).2, Cache.invalidate_entries_subset env s e.1⟩
        intro id hid
        rw [Cache.invalidate_lid2Id hlook]
        by_cases hmem : id ∈ e.1.keys
        · rw [if_pos hmem]
        · rw [if_neg hmem]
          cases hx : s.lid2Id id with
          | none => rfl
          | some r2 =>
            exfalso
            have hr2 : r2 = f :=
              hall r2 ((Cache.mem_findSetsContaining s key r2).2 ⟨id, hid, hx⟩)
            subst hr2
            obtain ⟨e3, he3, hie3, hhe3⟩ := h.2.2 id r2 hx
            have h3 : r2 ∈ e3.1.keys := List.mem_of_mem_head? (by rw [hhe3]; rfl)
            have h0 : r2 ∈ e.1.keys := by
              rw [hkf]
              exact List.mem_cons_self _ _
            have hsame := h.same_key he3 he h3 h0
            apply hmem
            rw [← hsame]
            exact hie3
      · simp only [hc] at hl
        cases hl
  · rw [if_neg hlen] at hl
    cases hl

/-! ## Reads and removes keep the invariant -/

theorem Cache.fetch_inv {s : Cache} (h : s.Inv) (env : Env) (key : KeySet) {first : Nat}
    {rest : List Nat} (hk : key.keys = first :: rest) (hs : key.keys.Sorted (· ≤ ·))
    (hfree : s.lookup key = none → ∀ id ∈ key.keys, s.lid2Id id = none) :
    (Cache.read env s key).2.Inv := by
  unfold Cache.read
  cases hl : s.lookup key with
  | some e =>
    obtain ⟨he, hkey⟩ := Cache.lookup_some hl
    refine ⟨?_, ?_, ?_⟩
    · apply List.pairwise_cons.2
      refine ⟨?_, List.Pairwise.filter _ h.1⟩
      intro e2 he2
      have := (List.mem_filter.1 he2).2
      rw [hkey]
      intro heq
      simp [heq] at this
    · intro e2 he2
      have hmem : e2 ∈ s.entries := by
        rcases List.mem_cons.1 he2 with h2 | h2
        · rw [h2]
          exact he
        · exact (List.mem_filter.1 h2).1
      exact h.2.1 e2 hmem
    · intro id r hid
      obtain ⟨e2, he2, hie, hhe⟩ := h.2.2 id r hid
      by_cases heq : e2.1 = key
      · refine ⟨e, List.mem_cons_self _ _, ?_, ?_⟩
        · rw [hkey, ← heq]
          exact hie
        · rw [hkey, ← heq]
          exact hhe
      · refine ⟨e2, List.mem_cons_of_mem _ ?_, hie, hhe⟩
        apply List.mem_filter.2
        exact ⟨he2, by simpa using heq⟩
  | none =>
    simp only
    have h1 : Cache.Inv { s with miss := s.miss + 1 } := h
    by_cases hr : (BackingStore.read env key).1 = true
    · rw [if_pos hr]
      exact h1.insert env key _ hk hs (hfree hl)
    · rw [if_neg hr]
      exact h1

/-- Every completed `Cache.read` adds one to exactly one of the two counters. -/
theorem Cache.fetch_counters (env : Env) (s : Cache) (key : KeySet) :
    (Cache.read env s key).2.hit + (Cache.read env s key).2.miss = s.hit + s.miss + 1 := by
  unfold Cache.read
  cases hl : s.lookup key with
  | some e =>
    simp only
    omega
  | none =>
    simp only
    by_cases hr : (BackingStore.read env key).1 = true
    · rw [if_pos hr]
      have h := Cache.insert_counters env { s with miss := s.miss + 1 } key
        (BackingStore.read env key).2
      simp only at h
      rw [h.1, h.2]
      omega
    · rw [if_neg hr]
      simp only
      omega

/-- An absent key is a miss: the value comes from the backing store, the miss counter
grows by one and the hit counter stays. -/
theorem Cache.read_of_absent (env : Env) (s : Cache) (key : KeySet)
    (hl : s.lookup key = none) :
    (Cache.read env s key).1 = (BackingStore.read env key).2 ∧
    (Cache.read env s key).2.miss = s.miss + 1 ∧
    (Cache.read env s key).2.hit = s.hit := by
  unfold Cache.read
  simp only [hl]
  by_cases hr : (BackingStore.read env key).1 = true
  · rw [if_pos hr]
    have h := Cache.insert_counters env { s with miss := s.miss + 1 } key
      (BackingStore.read env key).2
    exact ⟨rfl, h.2, h.1⟩
  · rw [if_neg hr]
    exact ⟨rfl, rfl, rfl⟩

theorem KeySet.ofLids_isEmpty (lids : List Nat) :
    (KeySet.ofLids lids).isEmpty = lids.isEmpty := by
  cases lids with
  | nil => rfl
  | cons a l =>
    have hp := (List.perm_insertionSort (· ≤ ·) (a :: l)).length_eq
    cases hk : (KeySet.ofLids (a :: l)).keys with
    | nil =>
      unfold KeySet.ofLids at hk
      simp only at hk
      rw [hk] at hp
      simp at hp
    | cons b r =>
      simp [KeySet.isEmpty, hk]

theorem VisitCache.read_inv {s : Cache} (h : s.Inv) (env : Env) (lids : List Nat)
    (r : CompressedBlobSet × Cache) (hr : VisitCache.read env s lids = some r) : r.2.Inv := by
  simp only [VisitCache.read] at hr
  cases hk : (KeySet.ofLids lids).keys with
  | nil =>
    have he : (KeySet.ofLids lids).isEmpty = true := by
      simp [KeySet.isEmpty, hk]
    simp only [he, Bool.not_true, Bool.false_eq_true, if_false] at hr
    have := Option.some.inj hr
    rw [← this]
    exact h
  | cons first rest =>
    have he : (KeySet.ofLids lids).isEmpty = false := by
      simp [KeySet.isEmpty, hk]
    have hs : (KeySet.ofLids lids).keys.Sorted (· ≤ ·) := List.sorted_insertionSort _ lids
    simp only [he, Bool.not_false, if_true] at hr
    cases hh : s.hasKey (KeySet.ofLids lids) with
    | true =>
      simp only [hh, Bool.not_true, Bool.false_eq_true, if_false] at hr
      have := Option.some.inj hr
      rw [← this]
      apply Cache.fetch_inv h env _ hk hs
      intro hnone
      unfold Cache.hasKey at hh
      rw [hnone] at hh
      cases hh
    | false =>
      simp only [hh, Bool.not_false, if_true] at hr
      cases hloc : Cache.locateAndInvalidateOtherSubsets env s (KeySet.ofLids lids) with
      | none =>
        rw [hloc] at hr
        cases hr
      | some s1 =>
        rw [hloc] at hr
        have := Option.some.inj hr
        rw [← this]
        obtain ⟨hinv, hfree, _, _, _⟩ := Cache.locate_spec h env _ s1 hloc
        exact Cache.fetch_inv hinv env _ hk hs (fun _ => hfree)

theorem VisitCache.read_counters {s : Cache} (h : s.Inv) (env : Env) (lids : List Nat)
    (r : CompressedBlobSet × Cache) (hr : VisitCache.read env s lids = some r) :
    r.2.hit + r.2.miss = s.hit + s.miss + (if lids.isEmpty then 0 else 1) := by
  simp only [VisitCache.read] at hr
  rw [← KeySet.ofLids_isEmpty]
  cases he : (KeySet.ofLids lids).isEmpty with
  | true =>
    simp only [he, Bool.not_true, Bool.false_eq_true, if_false] at hr
    have := Option.some.inj hr
    rw [← this]
    simp
  | false =>
    simp only [he, Bool.not_false, if_true] at hr
    cases hh : s.hasKey (KeySet.ofLids lids) with
    | true =>
      simp only [hh, Bool.not_true, Bool.false_eq_true, if_false] at hr
      have := Option.some.inj hr
      rw [← this]
      simpa using Cache.fetch_counters env s _
    | false =>
      simp only [hh, Bool.not_false, if_true] at hr
      cases hloc : Cache.locateAndInvalidateOtherSubsets env s (KeySet.ofLids lids) with
      | none =>
        rw [hloc] at hr
        cases hr
      | some s1 =>
        rw [hloc] at hr
        have := Option.some.inj hr
        rw [← this]
        obtain ⟨_, _, hhit, hmiss, _⟩ := Cache.locate_spec h env _ s1 hloc
        have hc := Cache.fetch_counters env s1 (KeySet.ofLids lids)
        simp only [Bool.false_eq_true, if_false]
        omega

/-- Under the invariant, `removeKey` on a mapped id invalidates the entry that holds it. -/
theorem Cache.removeKey_eq {s : Cache} (h : s.Inv) (env : Env) (subKey : Nat) :
    (s.lid2Id subKey = none ∧ Cache.removeKey env s subKey = s) ∨
    (∃ e ∈ s.entries, subKey ∈ e.1.keys ∧
      Cache.removeKey env s subKey = Cache.invalidate env s e.1) := by
  unfold Cache.removeKey
  cases hx : s.lid2Id subKey with
  | none => exact Or.inl ⟨rfl, rfl⟩
  | some r =>
    right
    obtain ⟨e, he, hie, hhe⟩ := h.2.2 subKey r hx
    obtain ⟨f, rest, hkf, _, _, hk1⟩ := h.2.1 e he
    have hfr : f = r := by
      rw [hkf] at hhe
      simpa using hhe
    subst hfr
    refine ⟨e, he, hie, ?_⟩
    simp only [Cache.id2KeySetAt, hk1]

theorem VisitCache.remove_inv {s : Cache} (h : s.Inv) (env : Env) (lid : Nat) :
    (VisitCache.remove env s lid).Inv := by
  unfold VisitCache.remove
  rcases Cache.removeKey_eq h env lid with ⟨_, h1⟩ | ⟨e, _, _, h1⟩
  · rw [h1]
    exact h
  · rw [h1]
    exact h.invalidate env e.1

theorem VisitCache.remove_counters {s : Cache} (h : s.Inv) (env : Env) (lid : Nat) :
    (VisitCache.remove env s lid).hit = s.hit ∧ (VisitCache.remove env s lid).miss = s.miss := by
  unfold VisitCache.remove
  rcases Cache.removeKey_eq h env lid with ⟨_, h1⟩ | ⟨e, _, _, h1⟩
  · rw [h1]
    exact ⟨rfl, rfl⟩
  · rw [h1]
    exact Cache.invalidate_counters env s e.1

theorem Cache.init_inv : Cache.init.Inv := by
  refine ⟨List.Pairwise.nil, ?_, ?_⟩
  · intro e he
    cases he
  · intro id r hid
    cases hid

theorem VisitCache.step_inv {s : Cache} (h : s.Inv) (env : Env) (op : Op) (s1 : Cache)
    (hs : VisitCache.step env s op = some s1) : s1.Inv := by
  cases op with
  | read lids =>
    simp only [VisitCache.step] at hs
    cases hr : VisitCache.read env s lids with
    | none =>
      rw [hr] at hs
      cases hs
    | some r =>
      rw [hr] at hs
      have := Option.some.inj hs
      rw [← this]
      exact VisitCache.read_inv h env lids r hr
  | remove lid =>
    simp only [VisitCache.step] at hs
    have := Option.some.inj hs
    rw [← this]
    exact VisitCache.remove_inv h env lid

theorem VisitCache.run_inv (env : Env) (ops : List Op) :
    ∀ (s s1 : Cache), s.Inv → VisitCache.run env s ops = some s1 → s1.Inv := by
  induction ops with
  | nil =>
    intro s s1 h hr
    have := Option.some.inj hr
    rw [← this]
    exact h
  | cons op rest ih =>
    intro s s1 h hr
    simp only [VisitCache.run] at hr
    cases hs : VisitCache.step env s op with
    | none =>
      rw [hs] at hr
      cases hr
    | some s2 =>
      rw [hs] at hr
      exact ih s2 s1 (VisitCache.step_inv h env op s2 hs) hr

/-- A completed run completes on each of its prefixes. -/
theorem VisitCache.run_append (env : Env) (pre post : List Op) :
    ∀ (s s1 : Cache), VisitCache.run env s (pre ++ post) = some s1 →
      ∃ t, VisitCache.run env s pre = some t ∧ VisitCache.run env t post = some s1 := by
  induction pre with
  | nil =>
    intro s s1 hr
    exact ⟨s, rfl, hr⟩
  | cons op rest ih =>
    intro s s1 hr
    simp only [List.cons_append, VisitCache.run] at hr
    simp only [VisitCache.run]
    cases hs : VisitCache.step env s op with
    | none =>
      rw [hs] at hr
      cases hr
    | some s2 =>
      rw [hs] at hr
      exact ih s2 s1 hr

theorem Cache.Inv.disjoint {s : Cache} (h : s.Inv) : s.Disjoint := by
  unfold Cache.Disjoint
  apply List.Pairwise.imp_of_mem _ h.1
  intro e1 e2 h1 h2 hne id hi1 hi2
  exact hne (h.same_key h1 h2 hi1 hi2)

theorem Cache.Inv.indexed {s : Cache} (h : s.Inv) : s.Indexed := by
  intro e he
  obtain ⟨f, r, hkf, hs, hl1, hk1⟩ := h.2.1 e he
  refine ⟨f, ?_, ?_, hl1, hk1⟩
  · rw [hkf]
    exact List.mem_cons_self _ _
  · intro id hid
    rw [hkf] at hid hs
    rcases List.mem_cons.1 hid with h1 | h1
    · rw [h1]
    · exact List.rel_of_sorted_cons hs id h1

/-! ## The coherency invariants over runs -/

/-- C4: invariant I2. After every sequence of `read` and `remove` calls from the empty
cache, and after each of its calls, the KeySets of the live entries are pairwise disjoint. -/
theorem VisitCache.run_disjoint (env : Env) (ops : List Op) (s : Cache)
    (h : VisitCache.run env Cache.init ops = some s) :
    s.Disjoint ∧
    ∀ pre post : List Op, ops = pre ++ post →
      ∃ t, VisitCache.run env Cache.init pre = some t ∧ t.Disjoint := by
  refine ⟨(VisitCache.run_inv env ops _ s Cache.init_inv h).disjoint, ?_⟩
  intro pre post hpp
  subst hpp
  obtain ⟨t, ht, _⟩ := VisitCache.run_append env pre post _ s h
  exact ⟨t, ht, (VisitCache.run_inv env pre _ t Cache.init_inv ht).disjoint⟩

theorem VisitCache.run_disjoint_witness :
    ∃ s, VisitCache.run exampleEnv Cache.init
        [Op.read [5, 9, 12], Op.read [2, 1], Op.remove 9, Op.read [12, 5, 9, 7]] = some s ∧
      s.Disjoint ∧ s.entries.map (fun e => e.1.keys) = [[5, 7, 9, 12], [1, 2]] :=
  ⟨_, rfl,
    (VisitCache.run_disjoint exampleEnv
      [Op.read [5, 9, 12], Op.read [2, 1], Op.remove 9, Op.read [12, 5, 9, 7]] _ rfl).1, rfl⟩

/-- C5: invariant I1. After every sequence of `read` and `remove` calls from the empty
cache, and after each of its calls, every live entry with KeySet `K` has all ids of `K`
mapped by `_lid2Id` to the minimum id of `K`, which `_id2KeySet` maps to `K`. -/
theorem VisitCache.run_indexed (env : Env) (ops : List Op) (s : Cache)
    (h : VisitCache.run env Cache.init ops = some s) :
    s.Indexed ∧
    ∀ pre post : List Op, ops = pre ++ post →
      ∃ t, VisitCache.run env Cache.init pre = some t ∧ t.Indexed := by
  refine ⟨(VisitCache.run_inv env ops _ s Cache.init_inv h).indexed, ?_⟩
  intro pre post hpp
  subst hpp
  obtain ⟨t, ht, _⟩ := VisitCache.run_append env pre post _ s h
  exact ⟨t, ht, (VisitCache.run_inv env pre _ t Cache.init_inv ht).indexed⟩

theorem VisitCache.run_indexed_witness :
    ∃ s, VisitCache.run exampleEnv Cache.init
        [Op.read [9, 5], Op.read [2, 1], Op.read [5, 9, 12], Op.remove 2, Op.read [4]] = some s ∧
      s.Indexed ∧ s.entries.map (fun e => e.1.keys) = [[4], [5, 9, 12]] ∧
      s.lid2Id 12 = some 5 ∧ s.id2KeySet 5 = some ⟨[5, 9, 12]⟩ ∧ s.lid2Id 2 = none :=
  ⟨_, rfl,
    (VisitCache.run_indexed exampleEnv
      [Op.read [9, 5], Op.read [2, 1], Op.read [5, 9, 12], Op.remove 2, Op.read [4]] _ rfl).1,
    rfl, rfl, rfl, rfl⟩

/-! ## Hit and miss counters -/

theorem VisitCache.run_counters (env : Env) (ops : List Op) :
    ∀ (s s1 : Cache), s.Inv → VisitCache.run env s ops = some s1 →
      s1.hit + s1.miss = s.hit + s.miss + countNonEmptyReads ops := by
  induction ops with
  | nil =>
    intro s s1 _ hr
    have := Option.some.inj hr
    rw [← this]
    rfl
  | cons op rest ih =>
    intro s s1 h hr
    simp only [VisitCache.run] at hr
    cases hs : VisitCache.step env s op with
    | none =>
      rw [hs] at hr
      cases hr
    | some s2 =>
      rw [hs] at hr
      have h2 := ih s2 s1 (VisitCache.step_inv h env op s2 hs) hr
      cases op with
      | read lids =>
        simp only [VisitCache.step] at hs
        cases hread : VisitCache.read env s lids with
        | none =>
          rw [hread] at hs
          cases hs
        | some r =>
          rw [hread] at hs
          have h3 := VisitCache.read_counters h env lids r hread
          have h4 : r.2 = s2 := Option.some.inj hs
          rw [h4] at h3
          simp only [countNonEmptyReads]
          omega
      | remove lid =>
        simp only [VisitCache.step] at hs
        have h4 : VisitCache.remove env s lid = s2 := Option.some.inj hs
        have h3 := VisitCache.remove_counters h env lid
        rw [h4] at h3
        simp only [countNonEmptyReads]
        omega

/-- C7: after every sequence of `read` and `remove` calls from the empty cache, hits plus
misses of the stats is the number of reads of a non-empty id collection; a read of no ids
and a remove change neither counter. -/
theorem VisitCache.hits_add_misses (env : Env) (ops : List Op) (s : Cache)
    (h : VisitCache.run env Cache.init ops = some s) :
    (VisitCache.getCacheStats s).hits + (VisitCache.getCacheStats s).misses
      = countNonEmptyReads ops ∧
    VisitCache.step env s (Op.read []) = some s ∧
    ∀ lid : Nat, ∃ t, VisitCache.step env s (Op.remove lid) = some t ∧
      (VisitCache.getCacheStats t).hits = (VisitCache.getCacheStats s).hits ∧
      (VisitCache.getCacheStats t).misses = (VisitCache.getCacheStats s).misses := by
  have hinv := VisitCache.run_inv env ops _ s Cache.init_inv h
  refine ⟨?_, rfl, ?_⟩
  · have h1 := VisitCache.run_counters env ops _ s Cache.init_inv h
    simp only [VisitCache.getCacheStats]
    simpa [Cache.init] using h1
  · intro lid
    exact ⟨VisitCache.remove env s lid, rfl, VisitCache.remove_counters hinv env lid⟩

theorem VisitCache.hits_add_misses_witness :
    ∃ s, VisitCache.run exampleEnv Cache.init
        [Op.read [5, 9, 12], Op.read [5, 9, 12], Op.read [], Op.remove 9, Op.read [5, 9, 12]]
        = some s ∧
      (VisitCache.getCacheStats s).hits + (VisitCache.getCacheStats s).misses = 3 ∧
      (VisitCache.getCacheStats s).hits = 1 ∧ (VisitCache.getCacheStats s).misses = 2 :=
  ⟨_, rfl,
    (VisitCache.hits_add_misses exampleEnv
      [Op.read [5, 9, 12], Op.read [5, 9, 12], Op.read [], Op.remove 9, Op.read [5, 9, 12]]
      _ rfl).1, rfl, rfl⟩

/-! ## A read after a remove -/

theorem Cache.lookup_eq_none {s : Cache} {key : KeySet} (h : ∀ e ∈ s.entries, e.1 ≠ key) :
    s.lookup key = none := by
  unfold Cache.lookup
  apply List.find?_eq_none.2
  intro e he
  simpa using h e he

/-- C6, as stated, fails: with `[1, 2]` and `[3, 4]` cached, after `remove(1)` the read of
`[1, 2, 3]`, a superset of `[1, 2]`, is no miss: it aborts on the assertion that the
overlapping entry `[3, 4]` is contained in the new key. -/
theorem VisitCache.superset_read_aborts :
    VisitCache.run exampleEnv Cache.init [Op.read [1, 2], Op.read [3, 4]] = some exampleCache ∧
    exampleCache.hasKey (KeySet.ofLids [1, 2]) = true ∧
    1 ∈ (KeySet.ofLids [1, 2]).keys ∧
    (∀ x ∈ (KeySet.ofLids [1, 2]).keys, x ∈ [1, 2, 3]) ∧
    VisitCache.read exampleEnv (VisitCache.remove exampleEnv exampleCache 1) [1, 2, 3] = none :=
  ⟨rfl, by decide, by decide, by decide, rfl⟩

/-- C6, amended: in a cache state reached from the empty cache in which KeySet `K` is
cached, after `remove(id)` for an id of `K` the entry of `K` is gone, and a read of a
superset of `K` aborts exactly when `locateAndInvalidateOtherSubsets` aborts on the new key;
otherwise it is a miss: the value returned is the one read from the backing store, the miss
counter of the stats grows by exactly one and the hit counter stays. -/
theorem VisitCache.read_after_remove (env : Env) (ops : List Op) (s : Cache)
    (h : VisitCache.run env Cache.init ops = some s) (K : KeySet) (hK : s.hasKey K = true)
    (id : Nat) (hid : id ∈ K.keys) (S : List Nat) (hS : ∀ x ∈ K.keys, x ∈ S) :
    (VisitCache.remove env s id).hasKey K = false ∧
    (VisitCache.read env (VisitCache.remove env s id) S = none ↔
      Cache.locateAndInvalidateOtherSubsets env (VisitCache.remove env s id) (KeySet.ofLids S)
        = none) ∧
    ∀ (v : CompressedBlobSet) (s2 : Cache),
      VisitCache.read env (VisitCache.remove env s id) S = some (v, s2) →
        v = (BackingStore.read env (KeySet.ofLids S)).2 ∧
        (VisitCache.getCacheStats s2).misses =
          (VisitCache.getCacheStats (VisitCache.remove env s id)).misses + 1 ∧
        (VisitCache.getCacheStats s2).hits =
          (VisitCache.getCacheStats (VisitCache.remove env s id)).hits := by
  have hinv := VisitCache.run_inv env ops _ s Cache.init_inv h
  have hinv2 := VisitCache.remove_inv hinv env id
  cases hlk : s.lookup K with
  | none =>
    unfold Cache.hasKey at hK
    rw [hlk] at hK
    cases hK
  | some e =>
    obtain ⟨he, heK⟩ := Cache.lookup_some hlk
    obtain ⟨f, r, hkf, _, hl1, _⟩ := hinv.2.1 e he
    rw [heK] at hkf hl1
    have hrem : VisitCache.remove env s id = Cache.invalidate env s K := by
      unfold VisitCache.remove
      rcases Cache.removeKey_eq hinv env id with ⟨h1, _⟩ | ⟨e2, he2, hie2, h2⟩
      · rw [hl1 id hid] at h1
        cases h1
      · have hsame := hinv.same_key he2 he hie2 (by rw [heK]; exact hid)
        rw [h2, hsame, heK]
    have hents : ∀ e2 ∈ (VisitCache.remove env s id).entries, e2 ∈ s.entries ∧ e2.1 ≠ K := by
      intro e2 he2
      rw [hrem, Cache.invalidate_entries] at he2
      obtain ⟨h1, h2⟩ := List.mem_filter.1 he2
      exact ⟨h1, by simpa using h2⟩
    have hfS : f ∈ (KeySet.ofLids S).keys := by
      unfold KeySet.ofLids
      apply (List.mem_insertionSort (· ≤ ·)).2
      apply hS
      rw [hkf]
      exact List.mem_cons_self _ _
    have hne : ∀ e2 ∈ (VisitCache.remove env s id).entries, e2.1 ≠ KeySet.ofLids S := by
      intro e2 he2 heq
      obtain ⟨h1, h2⟩ := hents e2 he2
      apply h2
      rw [← heK]
      have hf2 : f ∈ e2.1.keys := by
        rw [heq]
        exact hfS
      have hf0 : f ∈ e.1.keys := by
        rw [heK, hkf]
        exact List.mem_cons_self _ _
      exact hinv.same_key h1 he hf2 hf0
    have hnokey : (VisitCache.remove env s id).hasKey (KeySet.ofLids S) = false := by
      unfold Cache.hasKey
      rw [Cache.lookup_eq_none hne]
      rfl
    have hnonempty : (KeySet.ofLids S).isEmpty = false := by
      unfold KeySet.isEmpty
      cases hks : (KeySet.ofLids S).keys with
      | nil =>
        rw [hks] at hfS
        cases hfS
      | cons a l => rfl
    have hread : VisitCache.read env (VisitCache.remove env s id) S =
        match Cache.locateAndInvalidateOtherSubsets env (VisitCache.remove env s id)
          (KeySet.ofLids S) with
        | none => none
        | some s1 => some (Cache.read env s1 (KeySet.ofLids S)) := by
      simp only [VisitCache.read, hnonempty, hnokey, Bool.not_false, if_true]
    refine ⟨?_, ?_, ?_⟩
    · unfold Cache.hasKey
      rw [Cache.lookup_eq_none (fun e2 he2 => (hents e2 he2).2)]
      rfl
    · rw [hread]
      cases Cache.locateAndInvalidateOtherSubsets env (VisitCache.remove env s id)
        (KeySet.ofLids S) <;> simp
    · intro v s2 hv
      rw [hread] at hv
      cases hloc : Cache.locateAndInvalidateOtherSubsets env (VisitCache.remove env s id)
        (KeySet.ofLids S) with
      | none =>
        rw [hloc] at hv
        cases hv
      | some s1 =>
        rw [hloc] at hv
        have hv2 := Option.some.inj hv
        obtain ⟨_, _, hhit, hmiss, hsub⟩ := Cache.locate_spec hinv2 env _ s1 hloc
        have habs : s1.lookup (KeySet.ofLids S) = none :=
          Cache.lookup_eq_none (fun e2 he2 => hne e2 (hsub e2 he2))
        obtain ⟨h1, h2, h3⟩ := Cache.read_of_absent env s1 (KeySet.ofLids S) habs
        have hv3 : (Cache.read env s1 (KeySet.ofLids S)).1 = v := congrArg Prod.fst hv2
        have hv4 : (Cache.read env s1 (KeySet.ofLids S)).2 = s2 := congrArg Prod.snd hv2
        rw [hv3] at h1
        rw [hv4] at h2 h3
        simp only [VisitCache.getCacheStats]
        exact ⟨h1, by rw [h2, hmiss], by rw [h3, hhit]⟩

theorem VisitCache.read_after_remove_witness :
    VisitCache.run exampleEnv Cache.init [Op.read [1, 2], Op.read [3, 4]] = some exampleCache ∧
    exampleCache.hasKey (KeySet.ofLids [1, 2]) = true ∧
    (VisitCache.remove exampleEnv exampleCache 1).hasKey (KeySet.ofLids [1, 2]) = false ∧
    (VisitCache.read exampleEnv (VisitCache.remove exampleEnv exampleCache 1) [1, 2, 3] = none ↔
      Cache.locateAndInvalidateOtherSubsets exampleEnv
        (VisitCache.remove exampleEnv exampleCache 1) (KeySet.ofLids [1, 2, 3]) = none) ∧
    ∀ (v : CompressedBlobSet) (s2 : Cache),
      VisitCache.read exampleEnv (VisitCache.remove exampleEnv exampleCache 1) [2, 1, 7]
          = some (v, s2) →
        v = (BackingStore.read exampleEnv (KeySet.ofLids [2, 1, 7])).2 ∧
        (VisitCache.getCacheStats s2).misses =
          (VisitCache.getCacheStats (VisitCache.remove exampleEnv exampleCache 1)).misses + 1 ∧
        (VisitCache.getCacheStats s2).hits =
          (VisitCache.getCacheStats (VisitCache.remove exampleEnv exampleCache 1)).hits :=
  ⟨rfl, by decide,
    (VisitCache.read_after_remove exampleEnv [Op.read [1, 2], Op.read [3, 4]] exampleCache rfl
      (KeySet.ofLids [1, 2]) (by decide) 1 (by decide) [1, 2, 3] (by decide)).1,
    (VisitCache.read_after_remove exampleEnv [Op.read [1, 2], Op.read [3, 4]] exampleCache rfl
      (KeySet.ofLids [1, 2]) (by decide) 1 (by decide) [1, 2, 3] (by decide)).2.1,
    (VisitCache.read_after_remove exampleEnv [Op.read [1, 2], Op.read [3, 4]] exampleCache rfl
      (KeySet.ofLids [1, 2]) (by decide) 1 (by decide) [2, 1, 7] (by decide)).2.2⟩

/-! ## BlobSet: the layout of the position table -/

theorem BlobSet.layout_map (calls : List (Nat × List Byte)) :
    ∀ off : Nat, (BlobSet.layout off calls).map (fun p => (p.lid, p.size)) =
      calls.map (fun c => (c.1, c.2.length)) := by
  induction calls with
  | nil =>
    intro off
    rfl
  | cons c rest ih =>
    intro off
    simp only [BlobSet.layout, List.map_cons, ih]

theorem BlobSet.layout_sizes (calls : List (Nat × List Byte)) (off : Nat) :
    ((BlobSet.layout off calls).map (fun p => p.size)).sum =
      (calls.map (fun c => c.2)).flatten.length := by
  induction calls generalizing off with
  | nil => rfl
  | cons c rest ih =>
    simp only [BlobSet.layout, List.map_cons, List.sum_cons, List.flatten_cons,
      List.length_append, ih]

theorem BlobSet.layout_offset (calls : List (Nat × List Byte)) :
    ∀ (off i : Nat) (p : LidPosition), (BlobSet.layout off calls)[i]? = some p →
      p.offset = off + (((BlobSet.layout off calls).take i).map (fun q => q.size)).sum := by
  induction calls with
  | nil =>
    intro off i p hp
    simp [BlobSet.layout] at hp
  | cons c rest ih =>
    intro off i p hp
    cases i with
    | zero =>
      simp only [BlobSet.layout, List.getElem?_cons_zero, Option.some.injEq] at hp
      rw [← hp]
      simp
    | succ j =>
      simp only [BlobSet.layout, List.getElem?_cons_succ] at hp
      have h := ih (off + c.2.length) j p hp
      simp only [BlobSet.layout, List.take_succ_cons, List.map_cons, List.sum_cons]
      omega

theorem BlobSet.layout_bound (calls : List (Nat × List Byte)) :
    ∀ (off : Nat), ∀ p ∈ BlobSet.layout off calls,
      p.offset + p.size ≤ off + (calls.map (fun c => c.2)).flatten.length := by
  induction calls with
  | nil =>
    intro off p hp
    cases hp
  | cons c rest ih =>
    intro off p hp
    simp only [BlobSet.layout, List.mem_cons] at hp
    simp only [List.map_cons, List.flatten_cons, List.length_append]
    rcases hp with h | h
    · rw [h]
      simp only
      omega
    · have := ih (off + c.2.length) p h
      omega

theorem BlobSet.layout_slice (calls : List (Nat × List Byte)) :
    ∀ (pre : List Byte) (i : Nat) (c : Nat × List Byte), calls[i]? = some c →
      ∃ p, (BlobSet.layout pre.length calls)[i]? = some p ∧ p.lid = c.1 ∧
        ((pre ++ (calls.map (fun c => c.2)).flatten).drop p.offset).take p.size = c.2 := by
  induction calls with
  | nil =>
    intro pre i c hc
    simp at hc
  | cons d rest ih =>
    intro pre i c hc
    cases i with
    | zero =>
      simp only [List.getElem?_cons_zero, Option.some.injEq] at hc
      subst hc
      refine ⟨⟨d.1, pre.length, d.2.length⟩, ?_, rfl, ?_⟩
      · simp [BlobSet.layout]
      · simp
    | succ j =>
      simp only [List.getElem?_cons_succ] at hc
      obtain ⟨p, hp, hl, hs⟩ := ih (pre ++ d.2) j c hc
      refine ⟨p, ?_, hl, ?_⟩
      · simp only [List.length_append] at hp
        simp only [BlobSet.layout, List.getElem?_cons_succ]
        exact hp
      · simp only [List.append_assoc] at hs
        simp only [List.map_cons, List.flatten_cons]
        exact hs

/-- C16: after any sequence of appends on an empty BlobSet the positions stand in append
order (with the ids and lengths of the appended pairs), the offset of each position is the
sum of the lengths of the positions before it, offset plus length never exceeds the
buffer length, and for the last position the two are equal. -/
theorem BlobSet.positions_appendAll (calls : List (Nat × List Byte)) :
    (BlobSet.empty.appendAll calls).positions.map (fun p => (p.lid, p.size)) =
      calls.map (fun c => (c.1, c.2.length)) ∧
    (∀ (i : Nat) (p : LidPosition), (BlobSet.empty.appendAll calls).positions[i]? = some p →
      p.offset =
        (((BlobSet.empty.appendAll calls).positions.take i).map (fun q => q.size)).sum) ∧
    (∀ p ∈ (BlobSet.empty.appendAll calls).positions,
      p.offset + p.size ≤ (BlobSet.empty.appendAll calls).buffer.length) ∧
    (∀ last : LidPosition, (BlobSet.empty.appendAll calls).positions.getLast? = some last →
      last.offset + last.size = (BlobSet.empty.appendAll calls).buffer.length) := by
  have hsize := BlobSet.getBufferSize_appendAll calls
  rw [BlobSet.empty_appendAll_eq] at hsize ⊢
  refine ⟨BlobSet.layout_map calls 0, ?_, ?_, ?_⟩
  · intro i p hp
    have h := BlobSet.layout_offset calls 0 i p hp
    simpa using h
  · intro p hp
    have h := BlobSet.layout_bound calls 0 p hp
    simpa using h
  · intro last hlast
    simp only [getBufferSize] at hsize
    simp only at hlast
    rw [hlast] at hsize
    exact hsize

theorem BlobSet.positions_appendAll_witness :
    (BlobSet.empty.appendAll [(5, [97]), (9, [98, 98]), (5, [99])]).positions =
      [⟨5, 0, 1⟩, ⟨9, 1, 2⟩, ⟨5, 3, 1⟩] ∧
    (∀ p ∈ (BlobSet.empty.appendAll [(5, [97]), (9, [98, 98]), (5, [99])]).positions,
      p.offset + p.size ≤
        (BlobSet.empty.appendAll [(5, [97]), (9, [98, 98]), (5, [99])]).buffer.length) :=
  ⟨rfl, (BlobSet.positions_appendAll [(5, [97]), (9, [98, 98]), (5, [99])]).2.2.1⟩

theorem CompressedBlobSet.ofBlobSet_positions (codec : Codec) (cfg : CompressionConfig)
    (b : BlobSet) : (CompressedBlobSet.ofBlobSet codec cfg b).positions = b.positions := by
  unfold CompressedBlobSet.ofBlobSet
  by_cases h : b.getPositions.isEmpty = true
  · rw [if_pos h]
    rfl
  · rw [if_neg h]
    rfl

theorem BlobSet.ofAlloc_length (positions : List LidPosition) (alloc : List Byte) :
    (BlobSet.ofAlloc positions alloc).buffer.length = getBufferSize positions := by
  simp only [BlobSet.ofAlloc, List.length_append, List.length_take, List.length_replicate]
  omega

/-- C13: for a CompressedBlobSet built from a BlobSet that appends produced, whatever the
codec and its configuration, `getBlobSet()` returns the positions of the compressed set,
which are the positions the appends laid out, and a buffer whose length is the sum of the
lengths of these positions, that is the sum of the lengths of the appended payloads and the
length of the buffer that was compressed; the length hint `getBufferSize(_positions)`
passed to the codec, last offset plus last length, is that sum. -/
theorem CompressedBlobSet.getBlobSet_length (codec : Codec) (cfg : CompressionConfig)
    (calls : List (Nat × List Byte)) :
    ((CompressedBlobSet.ofBlobSet codec cfg (BlobSet.empty.appendAll calls)).getBlobSet
        codec).positions =
      (CompressedBlobSet.ofBlobSet codec cfg (BlobSet.empty.appendAll calls)).positions ∧
    (CompressedBlobSet.ofBlobSet codec cfg (BlobSet.empty.appendAll calls)).positions =
      BlobSet.layout 0 calls ∧
    ((CompressedBlobSet.ofBlobSet codec cfg (BlobSet.empty.appendAll calls)).getBlobSet
        codec).buffer.length =
      (((CompressedBlobSet.ofBlobSet codec cfg (BlobSet.empty.appendAll calls)).getBlobSet
        codec).positions.map (fun p => p.size)).sum ∧
    ((CompressedBlobSet.ofBlobSet codec cfg (BlobSet.empty.appendAll calls)).getBlobSet
        codec).buffer.length = (calls.map (fun c => c.2.length)).sum ∧
    ((CompressedBlobSet.ofBlobSet codec cfg (BlobSet.empty.appendAll calls)).getBlobSet
        codec).buffer.length = (BlobSet.empty.appendAll calls).buffer.length ∧
    getBufferSize (CompressedBlobSet.ofBlobSet codec cfg
        (BlobSet.empty.appendAll calls)).positions =
      ((CompressedBlobSet.ofBlobSet codec cfg
        (BlobSet.empty.appendAll calls)).positions.map (fun p => p.size)).sum ∧
    getBufferSize (CompressedBlobSet.ofBlobSet codec cfg
        (BlobSet.empty.appendAll calls)).positions = (calls.map (fun c => c.2.length)).sum := by
  have hpos := CompressedBlobSet.ofBlobSet_positions codec cfg (BlobSet.empty.appendAll calls)
  have hres : ((CompressedBlobSet.ofBlobSet codec cfg (BlobSet.empty.appendAll calls)).getBlobSet
      codec).positions =
      (CompressedBlobSet.ofBlobSet codec cfg (BlobSet.empty.appendAll calls)).positions := rfl
  have hlay : (BlobSet.empty.appendAll calls).positions = BlobSet.layout 0 calls := by
    rw [BlobSet.empty_appendAll_eq]
  have hsize := BlobSet.getBufferSize_appendAll calls
  have hsum : ((BlobSet.empty.appendAll calls).positions.map (fun p => p.size)).sum =
      (BlobSet.empty.appendAll calls).buffer.length := by
    rw [BlobSet.empty_appendAll_eq]
    exact BlobSet.layout_sizes calls 0
  have hpay : (BlobSet.empty.appendAll calls).buffer.length =
      (calls.map (fun c => c.2.length)).sum := by
    rw [BlobSet.empty_appendAll_eq]
    simp only [List.length_flatten, List.map_map]
    rfl
  have hlen : ((CompressedBlobSet.ofBlobSet codec cfg
      (BlobSet.empty.appendAll calls)).getBlobSet codec).buffer.length =
      (BlobSet.empty.appendAll calls).buffer.length := by
    unfold CompressedBlobSet.getBlobSet
    rw [BlobSet.ofAlloc_length, hpos, hsize]
  refine ⟨hres, by rw [hpos, hlay], ?_, ?_, hlen, ?_, ?_⟩
  · rw [hres, hpos, hsum, hlen]
  · rw [hlen, hpay]
  · rw [hpos, hsum, hsize]
  · rw [hpos, hsize, hpay]

theorem CompressedBlobSet.getBlobSet_length_witness :
    ((CompressedBlobSet.ofBlobSet Codec.verbatim ⟨CompressionType.LZ4, 0⟩
        (BlobSet.empty.appendAll [(5, [97]), (9, [98, 98])])).getBlobSet
        Codec.verbatim).positions = [⟨5, 0, 1⟩, ⟨9, 1, 2⟩] ∧
    ((CompressedBlobSet.ofBlobSet Codec.verbatim ⟨CompressionType.LZ4, 0⟩
        (BlobSet.empty.appendAll [(5, [97]), (9, [98, 98])])).getBlobSet
        Codec.verbatim).buffer.length = 3 ∧
    getBufferSize (CompressedBlobSet.ofBlobSet Codec.verbatim ⟨CompressionType.LZ4, 0⟩
        (BlobSet.empty.appendAll [(5, [97]), (9, [98, 98])])).positions = 3 :=
  ⟨rfl,
    (CompressedBlobSet.getBlobSet_length Codec.verbatim ⟨CompressionType.LZ4, 0⟩
      [(5, [97]), (9, [98, 98])]).2.2.2.1,
    (CompressedBlobSet.getBlobSet_length Codec.verbatim ⟨CompressionType.LZ4, 0⟩
      [(5, [97]), (9, [98, 98])]).2.2.2.2.2.2⟩

/-! ## The backing store adapter: what is collected -/

theorem VisitCollector.foldl_visit (calls : List (Nat × List Byte)) :
    ∀ b : BlobSet,
      calls.foldl (fun acc c => VisitCollector.visit acc c.1 c.2) b =
        b.appendAll (calls.filter (fun c => decide (c.2.length > 0))) := by
  induction calls with
  | nil =>
    intro b
    rfl
  | cons c rest ih =>
    intro b
    rw [List.foldl_cons, ih]
    by_cases h : c.2.length > 0
    · simp [VisitCollector.visit, h, BlobSet.appendAll]
    · simp [VisitCollector.visit, h]

/-- C11, as stated, fails: of the two callbacks `(1, empty)` and `(2, one byte)` only
the second leaves a position; id `1`, which the store reported, is absent. -/
theorem VisitCollector.empty_blob_skipped :
    (VisitCollector.collect [(1, []), (2, [7])]).positions = [⟨2, 0, 1⟩] ∧
    (VisitCollector.collect [(1, []), (2, [7])]).positions.length ≠ 2 ∧
    ∀ p ∈ (VisitCollector.collect [(1, []), (2, [7])]).positions, p.lid ≠ 1 := by
  decide

/-- C11, amended: the BlobSet that `BackingStore::read` compresses holds one position for
each callback with a non-empty payload, in callback order, with that callback's id and
payload; a callback with an empty payload adds nothing. -/
theorem VisitCollector.collect_eq (env : Env) (key : KeySet)
    (calls : List (Nat × List Byte)) :
    VisitCollector.collect calls =
      BlobSet.empty.appendAll (calls.filter (fun c => decide (c.2.length > 0))) ∧
    (VisitCollector.collect calls).positions.map (fun p => (p.lid, p.size)) =
      (calls.filter (fun c => decide (c.2.length > 0))).map (fun c => (c.1, c.2.length)) ∧
    (∀ (i : Nat) (c : Nat × List Byte),
      (calls.filter (fun c => decide (c.2.length > 0)))[i]? = some c →
      ∃ p, (VisitCollector.collect calls).positions[i]? = some p ∧ p.lid = c.1 ∧
        ((VisitCollector.collect calls).buffer.drop p.offset).take p.size = c.2) ∧
    (BackingStore.read env key).2.positions =
      (VisitCollector.collect (env.visit key.keys)).positions := by
  have h1 : ∀ l : List (Nat × List Byte), VisitCollector.collect l =
      BlobSet.empty.appendAll (l.filter (fun c => decide (c.2.length > 0))) := by
    intro l
    unfold VisitCollector.collect
    exact VisitCollector.foldl_visit l BlobSet.empty
  refine ⟨h1 calls, ?_, ?_, ?_⟩
  · rw [h1, BlobSet.empty_appendAll_eq]
    exact BlobSet.layout_map _ 0
  · intro i c hc
    rw [h1, BlobSet.empty_appendAll_eq]
    have h := BlobSet.layout_slice _ [] i c hc
    simpa using h
  · unfold BackingStore.read CompressedBlobSet.ofBlobSet
    simp only
    by_cases h : (VisitCollector.collect (env.visit key.keys)).getPositions.isEmpty = true
    · rw [if_pos h]
      rfl
    · rw [if_neg h]
      rfl

theorem VisitCollector.collect_eq_witness :
    VisitCollector.collect [(5, [7]), (6, []), (9, [8, 8])] =
      BlobSet.empty.appendAll [(5, [7]), (9, [8, 8])] ∧
    (VisitCollector.collect [(5, [7]), (6, []), (9, [8, 8])]).positions.map
        (fun p => (p.lid, p.size)) = [(5, 1), (9, 2)] ∧
    (BackingStore.read exampleEnv (KeySet.ofLids [9, 5])).2.positions =
      (VisitCollector.collect (exampleEnv.visit (KeySet.ofLids [9, 5]).keys)).positions :=
  ⟨(VisitCollector.collect_eq exampleEnv (KeySet.ofLids [9, 5])
      [(5, [7]), (6, []), (9, [8, 8])]).1,
    (VisitCollector.collect_eq exampleEnv (KeySet.ofLids [9, 5])
      [(5, [7]), (6, []), (9, [8, 8])]).2.1,
    (VisitCollector.collect_eq exampleEnv (KeySet.ofLids [9, 5])
      [(5, [7]), (6, []), (9, [8, 8])]).2.2.2⟩

/-! ## KeySet: the subset test with repeated ids -/

/-- On two ascending ranges `includes` compares multiplicities: it holds exactly when every
value occurs in the first range at least as often as in the second. -/
theorem includes_iff_count_le :
    ∀ (a b : List Nat), a.Sorted (· ≤ ·) → b.Sorted (· ≤ ·) →
      (includes a b = true ↔ ∀ x : Nat, b.count x ≤ a.count x) := by
  intro a
  induction a with
  | nil =>
    intro b _ _
    cases b with
    | nil => simp [includes]
    | cons y bs =>
      constructor
      · intro h
        simp [includes] at h
      · intro h
        have := h y
        simp at this
  | cons x as ih =>
    intro b ha hb
    cases b with
    | nil => simp [includes]
    | cons y bs =>
      have hxa : ∀ z ∈ as, x ≤ z := List.rel_of_sorted_cons ha
      have hyb : ∀ z ∈ bs, y ≤ z := List.rel_of_sorted_cons hb
      have has : as.Sorted (· ≤ ·) := List.Sorted.of_cons ha
      have hbs : bs.Sorted (· ≤ ·) := List.Sorted.of_cons hb
      by_cases h1 : y < x
      · have hy : y ∉ x :: as := by
          intro hmem
          rcases List.mem_cons.1 hmem with h | h
          · omega
          · have := hxa y h
            omega
        simp only [includes, h1, if_true]
        constructor
        · intro h
          exact absurd h (by simp)
        · intro h
          have h2 := h y
          rw [List.count_eq_zero_of_not_mem hy, List.count_cons_self] at h2
          omega
      · by_cases h2 : x < y
        · simp only [includes, h1, h2, if_true, if_false]
          rw [ih (y :: bs) has hb]
          have hxb : x ∉ y :: bs := by
            intro hmem
            rcases List.mem_cons.1 hmem with h | h
            · omega
            · have := hyb x h
              omega
          constructor
          · intro h z
            have h3 := h z
            have h4 : as.count z ≤ (x :: as).count z := by
              rw [List.count_cons]
              omega
            omega
          · intro h z
            by_cases hzx : z = x
            · rw [hzx, List.count_eq_zero_of_not_mem hxb]
              omega
            · have h3 := h z
              rw [List.count_cons_of_ne hzx] at h3
              exact h3
        · have hxy : x = y := by omega
          subst hxy
          simp only [includes, h1, if_false]
          rw [ih bs has hbs]
          constructor
          · intro h z
            have h3 := h z
            rw [List.count_cons, List.count_cons]
            omega
          · intro h z
            have h3 := h z
            rw [List.count_cons, List.count_cons] at h3
            omega

theorem KeySet.contains_ofLids (A B : List Nat) :
    (KeySet.ofLids A).contains (KeySet.ofLids B) = true ↔
      ∀ x : Nat, B.count x ≤ A.count x := by
  have hsA : (A.insertionSort (· ≤ ·)).Sorted (· ≤ ·) := List.sorted_insertionSort _ A
  have hsB : (B.insertionSort (· ≤ ·)).Sorted (· ≤ ·) := List.sorted_insertionSort _ B
  unfold KeySet.contains KeySet.ofLids
  rw [includes_iff_count_le _ _ hsA hsB]
  constructor
  · intro h x
    have := h x
    rw [(List.perm_insertionSort _ A).count_eq, (List.perm_insertionSort _ B).count_eq] at this
    exact this
  · intro h x
    rw [(List.perm_insertionSort _ A).count_eq, (List.perm_insertionSort _ B).count_eq]
    exact h x

/-- C14, as stated, fails: every id of `[1, 1]` occurs in `[1]`, yet `KeySet([1])` does
not contain `KeySet([1, 1])`. -/
theorem KeySet.repeated_id_not_contained :
    (KeySet.ofLids [1]).contains (KeySet.ofLids [1, 1]) = false ∧
    ∀ id ∈ [1, 1], id ∈ [1] := by
  decide

/-- C14, amended: for all collections of ids `A` and `B`, with or without repeated ids,
`KeySet(A).contains(KeySet(B))` holds exactly when every id occurs in `A` at least as often
as in `B`; when `B` has no repeated id this is: every id of `B` occurs in `A`. -/
theorem KeySet.contains_iff_count_le (A B : List Nat) :
    ((KeySet.ofLids A).contains (KeySet.ofLids B) = true ↔
      ∀ id : Nat, B.count id ≤ A.count id) ∧
    (B.Nodup →
      ((KeySet.ofLids A).contains (KeySet.ofLids B) = true ↔ ∀ id ∈ B, id ∈ A)) := by
  refine ⟨KeySet.contains_ofLids A B, ?_⟩
  intro hB
  rw [KeySet.contains_ofLids]
  constructor
  · intro h id hid
    have h1 := h id
    have h2 : 0 < B.count id := List.count_pos_iff.2 hid
    exact List.count_pos_iff.1 (by omega)
  · intro h id
    by_cases hid : id ∈ B
    · have h1 : B.count id = 1 := List.count_eq_one_of_mem hB hid
      have h2 : 0 < A.count id := List.count_pos_iff.2 (h id hid)
      omega
    · rw [List.count_eq_zero_of_not_mem hid]
      omega

theorem KeySet.contains_iff_count_le_witness :
    ((KeySet.ofLids [2, 1, 2]).contains (KeySet.ofLids [2, 2]) = true ↔
      ∀ id : Nat, [2, 2].count id ≤ [2, 1, 2].count id) ∧
    [3, 1].Nodup ∧
    ((KeySet.ofLids [1, 1, 3]).contains (KeySet.ofLids [3, 1]) = true ↔
      ∀ id ∈ [3, 1], id ∈ [1, 1, 3]) :=
  ⟨(KeySet.contains_iff_count_le [2, 1, 2] [2, 2]).1, by decide,
    (KeySet.contains_iff_count_le [1, 1, 3] [3, 1]).2 (by decide)⟩

/-- C20: `contains` orders KeySets: it is reflexive and transitive, and two KeySets that
contain each other have equal key sequences. -/
theorem KeySet.contains_partial_order (A B C : List Nat) :
    (KeySet.ofLids A).contains (KeySet.ofLids A) = true ∧
    ((KeySet.ofLids A).contains (KeySet.ofLids B) = true →
      (KeySet.ofLids B).contains (KeySet.ofLids C) = true →
      (KeySet.ofLids A).contains (KeySet.ofLids C) = true) ∧
    ((KeySet.ofLids A).contains (KeySet.ofLids B) = true →
      (KeySet.ofLids B).contains (KeySet.ofLids A) = true →
      (KeySet.ofLids A).keys = (KeySet.ofLids B).keys) := by
  refine ⟨?_, ?_, ?_⟩
  · rw [KeySet.contains_ofLids]
    intro x
    exact Nat.le_refl _
  · intro h1 h2
    rw [KeySet.contains_ofLids] at h1 h2 ⊢
    intro x
    exact Nat.le_trans (h2 x) (h1 x)
  · intro h1 h2
    rw [KeySet.contains_ofLids] at h1 h2
    have hp : A.Perm B := by
      apply List.perm_iff_count.2
      intro x
      exact Nat.le_antisymm (h2 x) (h1 x)
    have hp2 : (A.insertionSort (· ≤ ·)).Perm (B.insertionSort (· ≤ ·)) :=
      ((List.perm_insertionSort _ A).trans hp).trans (List.perm_insertionSort _ B).symm
    exact List.eq_of_perm_of_sorted hp2 (List.sorted_insertionSort _ A)
      (List.sorted_insertionSort _ B)

theorem KeySet.contains_partial_order_witness :
    (KeySet.ofLids [4, 2, 2]).contains (KeySet.ofLids [2, 4]) = true ∧
    (KeySet.ofLids [2, 4]).contains (KeySet.ofLids [4]) = true ∧
    (KeySet.ofLids [4, 2, 2]).contains (KeySet.ofLids [4]) = true ∧
    (KeySet.ofLids [2, 4]).contains (KeySet.ofLids [4, 2]) = true ∧
    (KeySet.ofLids [2, 4]).keys = (KeySet.ofLids [4, 2]).keys :=
  ⟨by decide, by decide,
    (KeySet.contains_partial_order [4, 2, 2] [2, 4] [4]).2.1 (by decide) (by decide),
    by decide,
    (KeySet.contains_partial_order [2, 4] [4, 2] []).2.2 (by decide) (by decide)⟩

/-! ## The insert hook -/

theorem KeySet.ofLids_cons_of_ne_nil (lids : List Nat) (hne : lids ≠ []) :
    ∃ (first : Nat) (rest : List Nat), (KeySet.ofLids lids).keys = first :: rest ∧
      first ∈ lids ∧ ∀ x ∈ lids, first ≤ x := by
  have hs : (KeySet.ofLids lids).keys.Sorted (· ≤ ·) := List.sorted_insertionSort _ lids
  have hmem : ∀ x, x ∈ (KeySet.ofLids lids).keys ↔ x ∈ lids := fun x =>
    List.mem_insertionSort (· ≤ ·)
  cases hk : (KeySet.ofLids lids).keys with
  | nil =>
    exfalso
    cases lids with
    | nil => exact hne rfl
    | cons a l =>
      have h := (hmem a).2 (List.mem_cons_self _ _)
      rw [hk] at h
      cases h
  | cons first rest =>
    rw [hk] at hs
    refine ⟨first, rest, rfl, ?_, ?_⟩
    · apply (hmem first).1
      rw [hk]
      exact List.mem_cons_self _ _
    · intro x hx
      have h := (hmem x).2 hx
      rw [hk] at h
      rcases List.mem_cons.1 h with h1 | h1
      · rw [h1]
      · exact List.rel_of_sorted_cons hs x h1

/-- C18: for every index state and every KeySet built from a non-empty collection of ids,
`onInsert(key)` uses as representative the first key, which is the minimum id of the
collection; afterwards every id of the key is mapped to it by `_lid2Id`, it is mapped to
the key by `_id2KeySet`, and the mappings of all other ids are as before. -/
theorem Cache.onInsert_index (s : Cache) (lids : List Nat) (hne : lids ≠ []) :
    ∃ first : Nat, (KeySet.ofLids lids).keys.head? = some first ∧
      first ∈ lids ∧ (∀ x ∈ lids, first ≤ x) ∧
      (∀ x ∈ lids, (Cache.onInsert s (KeySet.ofLids lids)).lid2Id x = some first) ∧
      (Cache.onInsert s (KeySet.ofLids lids)).id2KeySet first = some (KeySet.ofLids lids) ∧
      (∀ x : Nat, x ∉ lids →
        (Cache.onInsert s (KeySet.ofLids lids)).lid2Id x = s.lid2Id x ∧
        (Cache.onInsert s (KeySet.ofLids lids)).id2KeySet x = s.id2KeySet x) ∧
      (∀ x : Nat, x ≠ first →
        (Cache.onInsert s (KeySet.ofLids lids)).id2KeySet x = s.id2KeySet x) := by
  obtain ⟨first, rest, hk, hmem, hmin⟩ := KeySet.ofLids_cons_of_ne_nil lids hne
  have hiff : ∀ x, x ∈ (KeySet.ofLids lids).keys ↔ x ∈ lids := fun x =>
    List.mem_insertionSort (· ≤ ·)
  refine ⟨first, by rw [hk]; rfl, hmem, hmin, ?_, ?_, ?_, ?_⟩
  · intro x hx
    rw [Cache.onInsert_lid2Id s _ hk, if_pos ((hiff x).2 hx)]
  · rw [Cache.onInsert_id2KeySet s _ hk, if_pos rfl]
  · intro x hx
    constructor
    · rw [Cache.onInsert_lid2Id s _ hk, if_neg (fun h => hx ((hiff x).1 h))]
    · have hxf : x ≠ first := by
        intro h
        apply hx
        rw [h]
        exact hmem
      rw [Cache.onInsert_id2KeySet s _ hk, if_neg hxf]
  · intro x hx
    rw [Cache.onInsert_id2KeySet s _ hk, if_neg hx]

theorem Cache.onInsert_index_witness :
    [9, 5, 12] ≠ [] ∧
    ∃ first : Nat, (KeySet.ofLids [9, 5, 12]).keys.head? = some first ∧
      first ∈ [9, 5, 12] ∧ (∀ x ∈ [9, 5, 12], first ≤ x) ∧
      (∀ x ∈ [9, 5, 12],
        (Cache.onInsert exampleCache (KeySet.ofLids [9, 5, 12])).lid2Id x = some first) ∧
      (Cache.onInsert exampleCache (KeySet.ofLids [9, 5, 12])).id2KeySet first
        = some (KeySet.ofLids [9, 5, 12]) ∧
      (∀ x : Nat, x ∉ [9, 5, 12] →
        (Cache.onInsert exampleCache (KeySet.ofLids [9, 5, 12])).lid2Id x
          = exampleCache.lid2Id x ∧
        (Cache.onInsert exampleCache (KeySet.ofLids [9, 5, 12])).id2KeySet x
          = exampleCache.id2KeySet x) ∧
      (∀ x : Nat, x ≠ first →
        (Cache.onInsert exampleCache (KeySet.ofLids [9, 5, 12])).id2KeySet x
          = exampleCache.id2KeySet x) :=
  ⟨by decide, Cache.onInsert_index exampleCache [9, 5, 12] (by decide)⟩

/-! ## The subset index on states that satisfy I1 and I2 -/

/-- I1 and I2 on ascending keys, together with an index that maps only ids of live
entries, give the invariant that the calls carry. -/
theorem Cache.Inv.of_parts {s : Cache} (hI1 : s.Indexed) (hI2 : s.Disjoint)
    (hS : s.KeysSorted) (hL : s.IndexLive) : s.Inv := by
  have hB : ∀ e ∈ s.entries, ∃ (first : Nat) (rest : List Nat), e.1.keys = first :: rest ∧
      e.1.keys.Sorted (· ≤ ·) ∧ (∀ id ∈ e.1.keys, s.lid2Id id = some first) ∧
      s.id2KeySet first = some e.1 := by
    intro e he
    obtain ⟨m, hm, hmin, hl, hk⟩ := hI1 e he
    have hs := hS e he
    cases hkeys : e.1.keys with
    | nil =>
      rw [hkeys] at hm
      cases hm
    | cons f r =>
      rw [hkeys] at hm hmin hs
      have hfm : f = m := by
        have h1 : m ≤ f := hmin f (List.mem_cons_self _ _)
        have h2 : f ≤ m := by
          rcases List.mem_cons.1 hm with h | h
          · omega
          · exact List.rel_of_sorted_cons hs m h
        omega
      subst hfm
      refine ⟨f, r, rfl, hs, ?_, hk⟩
      intro id hid
      apply hl
      rw [hkeys]
      exact hid
  refine ⟨?_, hB, ?_⟩
  · apply List.Pairwise.imp_of_mem _ hI2
    intro e1 e2 h1 _ hdis heq
    obtain ⟨m, hm, _, _, _⟩ := hI1 e1 h1
    apply hdis m hm
    rw [← heq]
    exact hm
  · intro id r hid
    obtain ⟨e, he, hie⟩ := hL id r hid
    obtain ⟨f, rest, hk, _, hl, _⟩ := hB e he
    refine ⟨e, he, hie, ?_⟩
    have h := (hl id hie).symm.trans hid
    rw [hk]
    simpa using h

theorem IdSet.insert_nodup (found : List Nat) (id : Nat) (h : found.Nodup) :
    (IdSet.insert found id).Nodup := by
  unfold IdSet.insert
  by_cases hm : id ∈ found
  · rw [if_pos hm]
    exact h
  · rw [if_neg hm]
    apply (List.perm_orderedInsert (· ≤ ·) id found).nodup_iff.2
    exact List.nodup_cons.2 ⟨hm, h⟩

theorem Cache.findSetsContaining_nodup (s : Cache) (keys : KeySet) :
    (s.findSetsContaining keys).Nodup := by
  unfold Cache.findSetsContaining
  have h : ∀ (l : List Nat) (init : List Nat), init.Nodup →
      (l.foldl
        (fun found subKey =>
          match s.lid2Id subKey with
          | some id => IdSet.insert found id
          | none => found)
        init).Nodup := by
    intro l
    induction l with
    | nil =>
      intro init hi
      exact hi
    | cons k ks ih =>
      intro init hi
      rw [List.foldl_cons]
      apply ih
      cases s.lid2Id k with
      | none => exact hi
      | some v => exact IdSet.insert_nodup init v hi
  exact h keys.keys [] List.nodup_nil

/-- Under the invariant, the representatives found are the first ids of the live entries
that share an id with the new key. -/
theorem Cache.Inv.mem_found {s : Cache} (h : s.Inv) (keys : KeySet) (r : Nat) :
    r ∈ s.findSetsContaining keys ↔
      ∃ e ∈ s.entries, e.1.overlaps keys ∧ e.1.keys.head? = some r := by
  rw [Cache.mem_findSetsContaining]
  constructor
  · rintro ⟨id, hid, hx⟩
    obtain ⟨e, he, hie, hhe⟩ := h.2.2 id r hx
    exact ⟨e, he, ⟨id, hie, hid⟩, hhe⟩
  · rintro ⟨e, he, ⟨id, hie, hid⟩, hhe⟩
    obtain ⟨f, rest, hk, _, hl, _⟩ := h.2.1 e he
    refine ⟨id, hid, ?_⟩
    rw [hl id hie]
    rw [hk] at hhe
    simpa using hhe

/-- Under the invariant, two live entries with the same first id have the same key. -/
theorem Cache.Inv.same_head {s : Cache} (h : s.Inv) {e1 e2 : KeySet × CompressedBlobSet}
    (h1 : e1 ∈ s.entries) (h2 : e2 ∈ s.entries) {r : Nat} (hr1 : e1.1.keys.head? = some r)
    (hr2 : e2.1.keys.head? = some r) : e1.1 = e2.1 :=
  h.same_key h1 h2 (List.mem_of_mem_head? (by rw [hr1]; rfl))
    (List.mem_of_mem_head? (by rw [hr2]; rfl))

/-- Under the invariant, the value of the overlap scan, by the number of representatives
found. -/
theorem Cache.Inv.locate_eq {s : Cache} (h : s.Inv) (env : Env) (keys : KeySet) :
    (s.findSetsContaining keys = [] ∧
      Cache.locateAndInvalidateOtherSubsets env s keys = some s) ∨
    (∃ e ∈ s.entries, ∃ R : Nat, s.findSetsContaining keys = [R] ∧
      e.1.keys.head? = some R ∧ e.1.overlaps keys ∧
      Cache.locateAndInvalidateOtherSubsets env s keys =
        if keys.contains e.1 = true then some (Cache.invalidate env s e.1) else none) ∨
    (2 ≤ (s.findSetsContaining keys).length ∧
      Cache.locateAndInvalidateOtherSubsets env s keys = none) := by
  cases hf : s.findSetsContaining keys with
  | nil =>
    left
    refine ⟨rfl, ?_⟩
    simp [Cache.locateAndInvalidateOtherSubsets, hf]
  | cons R tl =>
    cases tl with
    | nil =>
      right
      left
      have hR : R ∈ s.findSetsContaining keys := by
        rw [hf]
        exact List.mem_cons_self _ _
      obtain ⟨e, he, hov, hhe⟩ := (h.mem_found keys R).1 hR
      obtain ⟨f, rest, hk, _, _, hk1⟩ := h.2.1 e he
      have hfR : f = R := by
        rw [hk] at hhe
        simpa using hhe
      subst hfR
      have hat : s.id2KeySetAt f = (e.1, s) := by
        unfold Cache.id2KeySetAt
        rw [hk1]
      refine ⟨e, he, f, rfl, hhe, hov, ?_⟩
      simp [Cache.locateAndInvalidateOtherSubsets, hf, hat]
    | cons R2 tl2 =>
      right
      right
      refine ⟨by simp, ?_⟩
      simp [Cache.locateAndInvalidateOtherSubsets, hf]

theorem Cache.Inv.head_mem_found {s : Cache} (h : s.Inv) (keys : KeySet)
    {e : KeySet × CompressedBlobSet} (he : e ∈ s.entries) (hov : e.1.overlaps keys) :
    ∃ r : Nat, e.1.keys.head? = some r ∧ r ∈ s.findSetsContaining keys := by
  obtain ⟨f, rest, hk, _, _, _⟩ := h.2.1 e he
  have hh : e.1.keys.head? = some f := by
    rw [hk]
    rfl
  exact ⟨f, hh, (h.mem_found keys f).2 ⟨e, he, hov, hh⟩⟩

/-- What invalidating a live entry does to that entry. -/
theorem Cache.Inv.invalidate_gone {s : Cache} (_h : s.Inv) (env : Env)
    {e : KeySet × CompressedBlobSet} (he : e ∈ s.entries) :
    (Cache.invalidate env s e.1).entries = s.entries.filter (fun x => x.1 ≠ e.1) ∧
    (Cache.invalidate env s e.1).hasKey e.1 = false ∧
    (∀ x ∈ e.1.keys, (Cache.invalidate env s e.1).lid2Id x = none) ∧
    (∀ x : Nat, x ∉ e.1.keys → (Cache.invalidate env s e.1).lid2Id x = s.lid2Id x) := by
  obtain ⟨e0, hlook⟩ := Cache.lookup_of_mem he
  refine ⟨Cache.invalidate_entries env s e.1, ?_, ?_, ?_⟩
  · unfold Cache.hasKey
    rw [Cache.lookup_eq_none]
    · rfl
    · intro e2 he2
      rw [Cache.invalidate_entries] at he2
      have := (List.mem_filter.1 he2).2
      simpa using this
  · intro x hx
    rw [Cache.invalidate_lid2Id hlook, if_pos hx]
  · intro x hx
    rw [Cache.invalidate_lid2Id hlook, if_neg hx]

/-- What invalidating a live entry leaves of another live entry: everything. -/
theorem Cache.Inv.invalidate_frame {s : Cache} (h : s.Inv) (env : Env)
    {e e2 : KeySet × CompressedBlobSet} (he : e ∈ s.entries) (he2 : e2 ∈ s.entries)
    (hne : e2.1 ≠ e.1) :
    e2 ∈ (Cache.invalidate env s e.1).entries ∧
    (∀ x ∈ e2.1.keys, (Cache.invalidate env s e.1).lid2Id x = s.lid2Id x) ∧
    (∀ m ∈ e2.1.keys, (Cache.invalidate env s e.1).id2KeySet m = s.id2KeySet m) := by
  obtain ⟨e0, hlook⟩ := Cache.lookup_of_mem he
  obtain ⟨f, rest, hk, _, _, _⟩ := h.2.1 e he
  have hdis : ∀ x ∈ e2.1.keys, x ∉ e.1.keys := by
    intro x hx hx2
    exact hne (h.same_key he2 he hx hx2)
  refine ⟨?_, ?_, ?_⟩
  · rw [Cache.invalidate_entries]
    apply List.mem_filter.2
    exact ⟨he2, by simpa using hne⟩
  · intro x hx
    rw [Cache.invalidate_lid2Id hlook, if_neg (hdis x hx)]
  · intro m hm
    have hmf : m ≠ f := by
      intro heq
      apply hdis m hm
      rw [heq, hk]
      exact List.mem_cons_self _ _
    rw [Cache.invalidate_id2KeySet hlook hk, if_neg hmf]

theorem exampleCache_inv : exampleCache.Inv :=
  VisitCache.run_inv exampleEnv [Op.read [1, 2], Op.read [3, 4]] Cache.init exampleCache
    Cache.init_inv rfl

theorem Cache.Inv.keysSorted {s : Cache} (h : s.Inv) : s.KeysSorted := by
  intro e he
  obtain ⟨_, _, _, hs, _, _⟩ := h.2.1 e he
  exact hs

theorem Cache.Inv.indexLive {s : Cache} (h : s.Inv) : s.IndexLive := by
  intro id r hid
  obtain ⟨e, he, hie, _⟩ := h.2.2 id r hid
  exact ⟨e, he, hie⟩

/-- Every state reached from the empty cache satisfies I1 and I2, has ascending keys and
an id index that maps only ids of live entries. -/
theorem VisitCache.run_parts (env : Env) (ops : List Op) (s : Cache)
    (h : VisitCache.run env Cache.init ops = some s) :
    s.Indexed ∧ s.Disjoint ∧ s.KeysSorted ∧ s.IndexLive := by
  have hinv := VisitCache.run_inv env ops _ s Cache.init_inv h
  exact ⟨hinv.indexed, hinv.disjoint, hinv.keysSorted, hinv.indexLive⟩

/-! ## removeKey -/

/-- On a cache state that satisfies I1 and I2 (keys ascending) and whose id index maps only
ids of live entries: when a live entry with KeySet `K` holds the id, `removeKey(id)`
removes exactly that entry and leaves every other entry and all other index mappings as
they were; when no live entry holds the id, the state is unchanged. -/
theorem Cache.removeKey_of_parts (env : Env) (s : Cache) (id : Nat) (hI1 : s.Indexed)
    (hI2 : s.Disjoint) (hS : s.KeysSorted) (hL : s.IndexLive) :
    (∀ e ∈ s.entries, id ∈ e.1.keys →
      (Cache.removeKey env s id).entries = s.entries.filter (fun x => x.1 ≠ e.1) ∧
      (Cache.removeKey env s id).hasKey e.1 = false ∧
      (∀ x ∈ e.1.keys, (Cache.removeKey env s id).lid2Id x = none) ∧
      (∀ x : Nat, x ∉ e.1.keys → (Cache.removeKey env s id).lid2Id x = s.lid2Id x) ∧
      (∀ e2 ∈ s.entries, e2.1 ≠ e.1 →
        e2 ∈ (Cache.removeKey env s id).entries ∧
        (∀ x ∈ e2.1.keys, (Cache.removeKey env s id).lid2Id x = s.lid2Id x) ∧
        (∀ m ∈ e2.1.keys, (Cache.removeKey env s id).id2KeySet m = s.id2KeySet m))) ∧
    ((∀ e ∈ s.entries, id ∉ e.1.keys) → Cache.removeKey env s id = s) := by
  have h := Cache.Inv.of_parts hI1 hI2 hS hL
  constructor
  · intro e he hid
    rcases Cache.removeKey_eq h env id with ⟨h1, _⟩ | ⟨e1, he1, hie1, h2⟩
    · obtain ⟨f, rest, _, _, hl, _⟩ := h.2.1 e he
      rw [hl id hid] at h1
      cases h1
    · have hsame : e1.1 = e.1 := h.same_key he1 he hie1 hid
      rw [h2, hsame]
      obtain ⟨g1, g2, g3, g4⟩ := h.invalidate_gone env he
      exact ⟨g1, g2, g3, g4, fun e2 he2 hne => h.invalidate_frame env he he2 hne⟩
  · intro hno
    rcases Cache.removeKey_eq h env id with ⟨_, h2⟩ | ⟨e1, he1, hie1, _⟩
    · exact h2
    · exact absurd hie1 (hno e1 he1)

/-- C12: every cache state reached from the empty cache by `read` and `remove` calls
satisfies I1 and I2, and for every id: when a live entry with KeySet `K` holds the id,
`removeKey(id)` removes exactly that entry (afterwards `K` is not cached and no id of `K`
is in the id index) and leaves every other entry and its index mappings as they were;
when no live entry holds the id, the cached entries and the index, indeed the whole
state, are unchanged. -/
theorem Cache.removeKey_reached (env : Env) (ops : List Op) (s : Cache) (id : Nat)
    (h : VisitCache.run env Cache.init ops = some s) :
    s.Indexed ∧ s.Disjoint ∧
    (∀ e ∈ s.entries, id ∈ e.1.keys →
      (Cache.removeKey env s id).entries = s.entries.filter (fun x => x.1 ≠ e.1) ∧
      (Cache.removeKey env s id).hasKey e.1 = false ∧
      (∀ x ∈ e.1.keys, (Cache.removeKey env s id).lid2Id x = none) ∧
      (∀ x : Nat, x ∉ e.1.keys → (Cache.removeKey env s id).lid2Id x = s.lid2Id x) ∧
      (∀ e2 ∈ s.entries, e2.1 ≠ e.1 →
        e2 ∈ (Cache.removeKey env s id).entries ∧
        (∀ x ∈ e2.1.keys, (Cache.removeKey env s id).lid2Id x = s.lid2Id x) ∧
        (∀ m ∈ e2.1.keys, (Cache.removeKey env s id).id2KeySet m = s.id2KeySet m))) ∧
    ((∀ e ∈ s.entries, id ∉ e.1.keys) → Cache.removeKey env s id = s) := by
  obtain ⟨hI1, hI2, hS, hL⟩ := VisitCache.run_parts env ops s h
  obtain ⟨h1, h2⟩ := Cache.removeKey_of_parts env s id hI1 hI2 hS hL
  exact ⟨hI1, hI2, h1, h2⟩

theorem Cache.removeKey_reached_witness :
    VisitCache.run exampleEnv Cache.init [Op.read [1, 2], Op.read [3, 4]] = some exampleCache ∧
    exampleCache.entries.map (fun e => e.1.keys) = [[3, 4], [1, 2]] ∧
    (∀ e ∈ exampleCache.entries, 7 ∉ e.1.keys) ∧
    Cache.removeKey exampleEnv exampleCache 7 = exampleCache ∧
    (Cache.removeKey exampleEnv exampleCache 3).entries.map (fun e => e.1.keys) = [[1, 2]] ∧
    (∀ x ∈ [3, 4], (Cache.removeKey exampleEnv exampleCache 3).lid2Id x = none) ∧
    (∀ x ∈ [1, 2], (Cache.removeKey exampleEnv exampleCache 3).lid2Id x = some 1) :=
  ⟨rfl, rfl, by decide,
    (Cache.removeKey_reached exampleEnv [Op.read [1, 2], Op.read [3, 4]] exampleCache 7
      rfl).2.2.2 (by decide),
    rfl, by decide, by decide⟩

/-! ## locateAndInvalidateOtherSubsets -/

/-- C15, as stated, fails: with `[1, 1]` cached after a read, the only live entry that
shares an id with the new key `[1, 2]` has all its ids in the new key, yet the call
aborts, because `contains` compares multiplicities. -/
theorem Cache.locate_aborts_unexpectedly :
    VisitCache.run exampleEnv Cache.init [Op.read [1, 1]] = some repeatedIdCache ∧
    repeatedIdCache.entries.map (fun e => e.1.keys) = [[1, 1]] ∧
    (∀ e ∈ repeatedIdCache.entries, ∀ id ∈ e.1.keys, id ∈ (KeySet.ofLids [1, 2]).keys) ∧
    Cache.locateAndInvalidateOtherSubsets exampleEnv repeatedIdCache (KeySet.ofLids [1, 2])
      = none :=
  ⟨rfl, rfl, by decide, rfl⟩

/-- C15, amended: on a cache state that satisfies I1 and I2 (keys ascending) and whose id
index maps only ids of live entries, for a non-empty new key the call aborts exactly when
two live entries with different KeySets share an id with the new key, or exactly one live
entry shares an id with it and `newKeys.contains` of its KeySet is false; otherwise it
completes. -/
theorem Cache.locate_aborts_iff (env : Env) (s : Cache) (newKeys : KeySet)
    (hI1 : s.Indexed) (hI2 : s.Disjoint) (hS : s.KeysSorted) (hL : s.IndexLive)
    (_hne : newKeys.keys ≠ []) :
    Cache.locateAndInvalidateOtherSubsets env s newKeys = none ↔
      (∃ e1 ∈ s.entries, ∃ e2 ∈ s.entries, e1.1 ≠ e2.1 ∧ e1.1.overlaps newKeys ∧
        e2.1.overlaps newKeys) ∨
      (∃ e ∈ s.entries, e.1.overlaps newKeys ∧
        (∀ e2 ∈ s.entries, e2.1.overlaps newKeys → e2.1 = e.1) ∧
        newKeys.contains e.1 = false) := by
  have h := Cache.Inv.of_parts hI1 hI2 hS hL
  have hmain : Cache.locateAndInvalidateOtherSubsets env s newKeys = none ↔
      (∃ e1 ∈ s.entries, ∃ e2 ∈ s.entries, e1.1 ≠ e2.1 ∧ e1.1.overlaps newKeys ∧
        e2.1.overlaps newKeys) ∨
      (∃ e ∈ s.entries, e.1.overlaps newKeys ∧
        (∀ e2 ∈ s.entries, e2.1.overlaps newKeys → e2.1 = e.1) ∧
        newKeys.contains e.1 = false) := by
    rcases h.locate_eq env newKeys with ⟨hf, hloc⟩ | ⟨e, he, R, hf, hhe, hov, hloc⟩ |
      ⟨hlen, hloc⟩
    · rw [hloc]
      constructor
      · intro hc
        cases hc
      · rintro (⟨e1, he1, _, _, _, hov1, _⟩ | ⟨e, he, hov, _, _⟩)
        · obtain ⟨r, _, hr⟩ := h.head_mem_found newKeys he1 hov1
          rw [hf] at hr
          cases hr
        · obtain ⟨r, _, hr⟩ := h.head_mem_found newKeys he hov
          rw [hf] at hr
          cases hr
    · have hsame : ∀ e2 ∈ s.entries, e2.1.overlaps newKeys → e2.1 = e.1 := by
        intro e2 he2 hov2
        obtain ⟨r, hh2, hr⟩ := h.head_mem_found newKeys he2 hov2
        rw [hf] at hr
        have hrR : r = R := by simpa using hr
        rw [hrR] at hh2
        exact h.same_head he2 he hh2 hhe
      rw [hloc]
      by_cases hc : newKeys.contains e.1 = true
      · rw [if_pos hc]
        constructor
        · intro hx
          cases hx
        · rintro (⟨e1, he1, e2, he2, hne, hov1, hov2⟩ | ⟨e3, he3, hov3, _, hc3⟩)
          · exact absurd ((hsame e1 he1 hov1).trans (hsame e2 he2 hov2).symm) hne
          · rw [hsame e3 he3 hov3, hc] at hc3
            cases hc3
      · rw [if_neg hc]
        constructor
        · intro _
          right
          exact ⟨e, he, hov, hsame, by simpa using hc⟩
        · intro _
          rfl
    · rw [hloc]
      constructor
      · intro _
        left
        have hnd := Cache.findSetsContaining_nodup s newKeys
        cases hf : s.findSetsContaining newKeys with
        | nil =>
          rw [hf] at hlen
          simp at hlen
        | cons r1 tl =>
          cases tl with
          | nil =>
            rw [hf] at hlen
            simp at hlen
          | cons r2 tl2 =>
            rw [hf] at hnd
            have hne12 : r1 ≠ r2 := by
              intro heq
              have := (List.nodup_cons.1 hnd).1
              apply this
              rw [heq]
              exact List.mem_cons_self _ _
            have hr1 : r1 ∈ s.findSetsContaining newKeys := by
              rw [hf]
              exact List.mem_cons_self _ _
            have hr2 : r2 ∈ s.findSetsContaining newKeys := by
              rw [hf]
              exact List.mem_cons_of_mem _ (List.mem_cons_self _ _)
            obtain ⟨e1, he1, hov1, hh1⟩ := (h.mem_found newKeys r1).1 hr1
            obtain ⟨e2, he2, hov2, hh2⟩ := (h.mem_found newKeys r2).1 hr2
            refine ⟨e1, he1, e2, he2, ?_, hov1, hov2⟩
            intro heq
            rw [heq, hh2] at hh1
            exact hne12 (Option.some.inj hh1).symm
      · intro _
        rfl
  exact hmain

theorem Cache.locate_aborts_iff_witness :
    exampleCache.Indexed ∧ exampleCache.Disjoint ∧ exampleCache.KeysSorted ∧
    exampleCache.IndexLive ∧ (KeySet.ofLids [1, 2, 3]).keys ≠ [] ∧
    Cache.locateAndInvalidateOtherSubsets exampleEnv exampleCache (KeySet.ofLids [1, 2, 3])
      = none ∧
    ((∃ e1 ∈ exampleCache.entries, ∃ e2 ∈ exampleCache.entries, e1.1 ≠ e2.1 ∧
        e1.1.overlaps (KeySet.ofLids [1, 2, 3]) ∧ e2.1.overlaps (KeySet.ofLids [1, 2, 3])) ∨
      (∃ e ∈ exampleCache.entries, e.1.overlaps (KeySet.ofLids [1, 2, 3]) ∧
        (∀ e2 ∈ exampleCache.entries, e2.1.overlaps (KeySet.ofLids [1, 2, 3]) → e2.1 = e.1) ∧
        (KeySet.ofLids [1, 2, 3]).contains e.1 = false)) :=
  ⟨exampleCache_inv.indexed, exampleCache_inv.disjoint, exampleCache_inv.keysSorted,
    exampleCache_inv.indexLive, by decide, rfl,
    (Cache.locate_aborts_iff exampleEnv exampleCache (KeySet.ofLids [1, 2, 3])
      exampleCache_inv.indexed exampleCache_inv.disjoint exampleCache_inv.keysSorted
      exampleCache_inv.indexLive (by decide)).1 rfl⟩

/-- On a cache state that satisfies I1 and I2 (keys ascending) and whose id index maps only
ids of live entries, when the call completes, no live entry shares an id with the new key
any more, no id of the new key is in the id index, and every entry that shared no id with
the new key is still cached with its index mappings as before. -/
theorem Cache.locate_of_parts (env : Env) (s : Cache) (newKeys : KeySet) (s1 : Cache)
    (hI1 : s.Indexed) (hI2 : s.Disjoint) (hS : s.KeysSorted) (hL : s.IndexLive)
    (_hne : newKeys.keys ≠ [])
    (hloc : Cache.locateAndInvalidateOtherSubsets env s newKeys = some s1) :
    (∀ e ∈ s1.entries, ¬ e.1.overlaps newKeys) ∧
    (∀ id ∈ newKeys.keys, s1.lid2Id id = none) ∧
    (∀ e ∈ s.entries, ¬ e.1.overlaps newKeys →
      e ∈ s1.entries ∧
      (∀ x ∈ e.1.keys, s1.lid2Id x = s.lid2Id x) ∧
      (∀ m ∈ e.1.keys, s1.id2KeySet m = s.id2KeySet m)) := by
  have h := Cache.Inv.of_parts hI1 hI2 hS hL
  obtain ⟨hinv1, hfree, _, _, _⟩ := Cache.locate_spec h env newKeys s1 hloc
  refine ⟨?_, hfree, ?_⟩
  · rintro e he ⟨id, hie, hid⟩
    obtain ⟨f, rest, _, _, hl, _⟩ := hinv1.2.1 e he
    have := (hl id hie).symm.trans (hfree id hid)
    cases this
  · intro e2 he2 hno
    rcases h.locate_eq env newKeys with ⟨_, hloc2⟩ | ⟨e, he, R, _, _, hov, hloc2⟩ |
      ⟨_, hloc2⟩
    · rw [hloc2] at hloc
      have hs : s = s1 := Option.some.inj hloc
      subst hs
      exact ⟨he2, fun _ _ => rfl, fun _ _ => rfl⟩
    · rw [hloc2] at hloc
      by_cases hc : newKeys.contains e.1 = true
      · rw [if_pos hc] at hloc
        have hs : Cache.invalidate env s e.1 = s1 := Option.some.inj hloc
        subst hs
        have hne : e2.1 ≠ e.1 := by
          intro heq
          apply hno
          rw [heq]
          exact hov
        exact h.invalidate_frame env he he2 hne
      · rw [if_neg hc] at hloc
        cases hloc
    · rw [hloc2] at hloc
      cases hloc

/-- C17: every cache state reached from the empty cache by `read` and `remove` calls
satisfies I1 and I2, and when `locateAndInvalidateOtherSubsets` completes on a non-empty
new key, afterwards no live entry shares an id with the new key, no id of the new key is in
the id index, and every entry that shared no id with the new key is still cached with its
index mappings as before. -/
theorem Cache.locate_reached (env : Env) (ops : List Op) (s : Cache) (newKeys : KeySet)
    (s1 : Cache) (h : VisitCache.run env Cache.init ops = some s)
    (hne : newKeys.keys ≠ [])
    (hloc : Cache.locateAndInvalidateOtherSubsets env s newKeys = some s1) :
    s.Indexed ∧ s.Disjoint ∧
    (∀ e ∈ s1.entries, ¬ e.1.overlaps newKeys) ∧
    (∀ id ∈ newKeys.keys, s1.lid2Id id = none) ∧
    (∀ e ∈ s.entries, ¬ e.1.overlaps newKeys →
      e ∈ s1.entries ∧
      (∀ x ∈ e.1.keys, s1.lid2Id x = s.lid2Id x) ∧
      (∀ m ∈ e.1.keys, s1.id2KeySet m = s.id2KeySet m)) := by
  obtain ⟨hI1, hI2, hS, hL⟩ := VisitCache.run_parts env ops s h
  obtain ⟨h1, h2, h3⟩ := Cache.locate_of_parts env s newKeys s1 hI1 hI2 hS hL hne hloc
  exact ⟨hI1, hI2, h1, h2, h3⟩

theorem Cache.locate_reached_witness :
    VisitCache.run exampleEnv Cache.init [Op.read [1, 2], Op.read [3, 4]] = some exampleCache ∧
    (KeySet.ofLids [4, 3, 9]).keys ≠ [] ∧
    ∃ s1, Cache.locateAndInvalidateOtherSubsets exampleEnv exampleCache (KeySet.ofLids [4, 3, 9])
        = some s1 ∧
      s1.entries.map (fun e => e.1.keys) = [[1, 2]] ∧
      (∀ e ∈ s1.entries, ¬ e.1.overlaps (KeySet.ofLids [4, 3, 9])) ∧
      (∀ id ∈ (KeySet.ofLids [4, 3, 9]).keys, s1.lid2Id id = none) ∧
      (∀ x ∈ [1, 2], s1.lid2Id x = some 1) :=
  ⟨rfl, by decide,
    ⟨_, rfl, rfl,
      (Cache.locate_reached exampleEnv [Op.read [1, 2], Op.read [3, 4]] exampleCache
        (KeySet.ofLids [4, 3, 9]) _ rfl (by decide) rfl).2.2.1,
      (Cache.locate_reached exampleEnv [Op.read [1, 2], Op.read [3, 4]] exampleCache
        (KeySet.ofLids [4, 3, 9]) _ rfl (by decide) rfl).2.2.2.1,
      by decide⟩⟩

/-! ## The ordering selector: Or nodes -/

/-- The result of an `Or` node at the top of an expression, by the results of its
branches: only when both are known `pickOrdering` is asked; else the result of the right
branch stays. -/
theorem OrderingSelector.select_or (l r : Node) (order : Order) :
    OrderingSelector.select (Node.Or l r) order =
      match OrderingSelector.select l order, OrderingSelector.select r order with
      | some ls, some rs => OrderingVisitor.pickOrdering rs ls false
      | _, _ => OrderingSelector.select r order := by
  simp only [OrderingSelector.select, OrderingVisitor.visit]

/-- C19 on the code: for either order, an `Or` node whose left branch is unknown (a
constant) and whose right branch is `id.order(10, 10) == 5` yields the specification of the
right branch, not the unknown status; with the branches swapped the status is unknown. -/
theorem OrderingSelector.select_or_left_unknown :
    OrderingSelector.select Node.Constant Order.ASCENDING = none ∧
    OrderingSelector.select (Node.Or Node.Constant orderEqFive) Order.ASCENDING
      = some ⟨Order.ASCENDING, 5, 10, 10⟩ ∧
    OrderingSelector.select (Node.Or Node.Constant orderEqFive) Order.DESCENDING
      = some ⟨Order.DESCENDING, 5, 10, 10⟩ ∧
    OrderingSelector.select (Node.Or orderEqFive Node.Constant) Order.ASCENDING = none ∧
    OrderingSelector.select (Node.Or orderEqFive Node.Constant) Order.DESCENDING = none := by
  decide

/-! ## The ordering selector: pickOrdering -/

/-- C22: `pickOrdering` does not depend on the order of its two specifications. Both calls
are empty exactly when the two differ in width bits, division bits or order; else both
give the specification with the common order, width bits and division bits whose start is
the larger of the two starts for ascending under And and for descending under Or, and the
smaller of the two otherwise. -/
theorem OrderingVisitor.pickOrdering_symm (a b : OrderingSpecification) (isAnd : Bool) :
    OrderingVisitor.pickOrdering a b isAnd = OrderingVisitor.pickOrdering b a isAnd ∧
    (OrderingVisitor.pickOrdering a b isAnd = none ↔
      (a.widthBits ≠ b.widthBits ∨ a.divisionBits ≠ b.divisionBits ∨ a.order ≠ b.order)) ∧
    (a.widthBits = b.widthBits → a.divisionBits = b.divisionBits → a.order = b.order →
      OrderingVisitor.pickOrdering a b isAnd =
        some ⟨a.order,
          if (a.order = Order.ASCENDING ∧ isAnd = true) ∨
              (a.order = Order.DESCENDING ∧ isAnd = false) then
            max a.orderingStart b.orderingStart
          else min a.orderingStart b.orderingStart,
          a.widthBits, a.divisionBits⟩) := by
  refine ⟨?_, ?_, ?_⟩
  · unfold OrderingVisitor.pickOrdering
    by_cases h : a.widthBits = b.widthBits ∧ a.divisionBits = b.divisionBits ∧ a.order = b.order
    · have h2 : b.widthBits = a.widthBits ∧ b.divisionBits = a.divisionBits ∧
          b.order = a.order := ⟨h.1.symm, h.2.1.symm, h.2.2.symm⟩
      rw [if_pos h, if_pos h2, h.1, h.2.1, h.2.2, max_comm, min_comm]
    · have h2 : ¬ (b.widthBits = a.widthBits ∧ b.divisionBits = a.divisionBits ∧
          b.order = a.order) := fun h3 => h ⟨h3.1.symm, h3.2.1.symm, h3.2.2.symm⟩
      rw [if_neg h, if_neg h2]
  · unfold OrderingVisitor.pickOrdering
    by_cases h : a.widthBits = b.widthBits ∧ a.divisionBits = b.divisionBits ∧ a.order = b.order
    · rw [if_pos h]
      constructor
      · intro h2
        split at h2 <;> cases h2
      · rintro (h2 | h2 | h2)
        · exact absurd h.1 h2
        · exact absurd h.2.1 h2
        · exact absurd h.2.2 h2
    · rw [if_neg h]
      constructor
      · intro _
        by_cases hw : a.widthBits = b.widthBits
        · by_cases hd : a.divisionBits = b.divisionBits
          · right
            right
            intro ho
            exact h ⟨hw, hd, ho⟩
          · exact Or.inr (Or.inl hd)
        · exact Or.inl hw
      · intro _
        rfl
  · intro hw hd ho
    unfold OrderingVisitor.pickOrdering
    rw [if_pos ⟨hw, hd, ho⟩]
    split
    · rw [hw]
    · rw [hw]

theorem OrderingVisitor.pickOrdering_symm_witness :
    OrderingVisitor.pickOrdering ⟨Order.ASCENDING, 3, 10, 10⟩ ⟨Order.ASCENDING, 7, 10, 10⟩ true
      = some ⟨Order.ASCENDING, 7, 10, 10⟩ ∧
    OrderingVisitor.pickOrdering ⟨Order.ASCENDING, 7, 10, 10⟩ ⟨Order.ASCENDING, 3, 10, 10⟩ true
      = some ⟨Order.ASCENDING, 7, 10, 10⟩ ∧
    OrderingVisitor.pickOrdering ⟨Order.ASCENDING, 3, 10, 10⟩ ⟨Order.ASCENDING, 7, 10, 10⟩ false
      = some ⟨Order.ASCENDING, 3, 10, 10⟩ ∧
    OrderingVisitor.pickOrdering ⟨Order.ASCENDING, 3, 10, 10⟩ ⟨Order.DESCENDING, 7, 10, 10⟩ true
      = none :=
  ⟨(OrderingVisitor.pickOrdering_symm ⟨Order.ASCENDING, 3, 10, 10⟩
      ⟨Order.ASCENDING, 7, 10, 10⟩ true).2.2 rfl rfl rfl,
    (OrderingVisitor.pickOrdering_symm ⟨Order.ASCENDING, 7, 10, 10⟩
      ⟨Order.ASCENDING, 3, 10, 10⟩ true).2.2 rfl rfl rfl,
    (OrderingVisitor.pickOrdering_symm ⟨Order.ASCENDING, 3, 10, 10⟩
      ⟨Order.ASCENDING, 7, 10, 10⟩ false).2.2 rfl rfl rfl,
    ((OrderingVisitor.pickOrdering_symm ⟨Order.ASCENDING, 3, 10, 10⟩
      ⟨Order.DESCENDING, 7, 10, 10⟩ true).2.1).2 (Or.inr (Or.inr (by decide)))⟩

/-! ## The insert hook undone by the remove hook -/

/-- C21: for every index state and every non-empty KeySet (ascending, as every constructed
KeySet is) none of whose ids is in `_lid2Id` and whose minimum id is not in `_id2KeySet`,
`onInsert(key)` followed by `onRemove(key)` gives back both maps, and with them the whole
state, exactly as they were. -/
theorem Cache.onRemove_onInsert (s : Cache) (key : KeySet) (hne : key.keys ≠ [])
    (hs : key.keys.Sorted (· ≤ ·)) (hfree : ∀ id ∈ key.keys, s.lid2Id id = none)
    (hmin : ∀ m ∈ key.keys, (∀ x ∈ key.keys, m ≤ x) → s.id2KeySet m = none) :
    (Cache.onRemove (Cache.onInsert s key) key).lid2Id = s.lid2Id ∧
    (Cache.onRemove (Cache.onInsert s key) key).id2KeySet = s.id2KeySet ∧
    Cache.onRemove (Cache.onInsert s key) key = s := by
  cases hk : key.keys with
  | nil => exact absurd hk hne
  | cons first rest =>
    have hfirst : s.id2KeySet first = none := by
      apply hmin
      · rw [hk]
        exact List.mem_cons_self _ _
      · intro x hx
        rw [hk] at hx hs
        rcases List.mem_cons.1 hx with h | h
        · rw [h]
        · exact List.rel_of_sorted_cons hs x h
    have h1 : (Cache.onRemove (Cache.onInsert s key) key).lid2Id = s.lid2Id := by
      funext x
      have hr : (Cache.onRemove (Cache.onInsert s key) key).lid2Id x =
          if x ∈ key.keys then none else (Cache.onInsert s key).lid2Id x := by
        unfold Cache.onRemove
        exact foldl_mapErase key.keys (Cache.onInsert s key).lid2Id x
      rw [hr, Cache.onInsert_lid2Id s key hk]
      by_cases hx : x ∈ key.keys
      · rw [if_pos hx, hfree x hx]
      · rw [if_neg hx, if_neg hx]
    have h2 : (Cache.onRemove (Cache.onInsert s key) key).id2KeySet = s.id2KeySet := by
      funext x
      have hr : (Cache.onRemove (Cache.onInsert s key) key).id2KeySet x =
          if x = first then none else (Cache.onInsert s key).id2KeySet x := by
        unfold Cache.onRemove
        simp only [hk, List.head?_cons]
        rfl
      rw [hr, Cache.onInsert_id2KeySet s key hk]
      by_cases hx : x = first
      · rw [if_pos hx, hx, hfirst]
      · rw [if_neg hx, if_neg hx]
    refine ⟨h1, h2, ?_⟩
    have h3 := Cache.onInsert_rest s key
    have h4 : Cache.onRemove (Cache.onInsert s key) key =
        ⟨(Cache.onInsert s key).entries,
          (Cache.onRemove (Cache.onInsert s key) key).lid2Id,
          (Cache.onRemove (Cache.onInsert s key) key).id2KeySet,
          (Cache.onInsert s key).sizeBytes, (Cache.onInsert s key).hit,
          (Cache.onInsert s key).miss⟩ := rfl
    rw [h4, h1, h2, h3.1, h3.2.1, h3.2.2.1, h3.2.2.2]

theorem Cache.onRemove_onInsert_witness :
    (KeySet.ofLids [9, 5]).keys ≠ [] ∧ (KeySet.ofLids [9, 5]).keys.Sorted (· ≤ ·) ∧
    (∀ id ∈ (KeySet.ofLids [9, 5]).keys, exampleCache.lid2Id id = none) ∧
    Cache.onRemove (Cache.onInsert exampleCache (KeySet.ofLids [9, 5])) (KeySet.ofLids [9, 5])
      = exampleCache ∧
    (Cache.onInsert exampleCache (KeySet.ofLids [9, 5])).lid2Id 9 = some 5 :=
  ⟨by decide, by decide, by decide,
    (Cache.onRemove_onInsert exampleCache (KeySet.ofLids [9, 5]) (by decide) (by decide)
      (by decide) (by decide)).2.2, rfl⟩

/-! ## The dense tensor binary format: dimensions -/

theorem encodeDimensions_foldl (ops : StreamOps) (dims : List Dimension) :
    ∀ (stream : List Byte) (c : Nat),
      dims.foldl
        (fun acc dimension =>
          (acc.1 ++ ops.writeSmallString dimension.name ++ ops.putInt1_4Bytes dimension.size,
            (acc.2 * dimension.size) % sizeModulus))
        (stream, c) =
      (stream ++ (dims.map (fun d =>
          ops.writeSmallString d.name ++ ops.putInt1_4Bytes d.size)).flatten,
        dims.foldl (fun acc d => (acc * d.size) % sizeModulus) c) := by
  induction dims with
  | nil =>
    intro stream c
    simp
  | cons d rest ih =>
    intro stream c
    rw [List.foldl_cons, ih]
    simp [List.append_assoc]

theorem cells_foldl (dims : List Dimension) :
    ∀ c : Nat, c < sizeModulus →
      dims.foldl (fun acc d => (acc * d.size) % sizeModulus) c =
        (c * (dims.map (fun d => d.size)).prod) % sizeModulus := by
  induction dims with
  | nil =>
    intro c hc
    simp [Nat.mod_eq_of_lt hc]
  | cons d rest ih =>
    intro c _
    have hpos : 0 < sizeModulus := by decide
    rw [List.foldl_cons, ih _ (Nat.mod_lt _ hpos)]
    simp only [List.map_cons, List.prod_cons]
    rw [Nat.mul_mod, Nat.mod_mod, ← Nat.mul_mod, Nat.mul_assoc]

theorem decodeDimensionsLoop_body (ops : StreamOps) (h : ops.Inverts) (dims : List Dimension) :
    ∀ (rest : List Byte) (acc : List Dimension) (c : Nat),
      decodeDimensionsLoop ops dims.length
        ((dims.map (fun d =>
          ops.writeSmallString d.name ++ ops.putInt1_4Bytes d.size)).flatten ++ rest) acc c =
      some (rest, acc ++ dims, dims.foldl (fun acc d => (acc * d.size) % sizeModulus) c) := by
  induction dims with
  | nil =>
    intro rest acc c
    simp [decodeDimensionsLoop]
  | cons d ds ih =>
    intro rest acc c
    simp only [List.map_cons, List.flatten_cons, List.length_cons, List.append_assoc,
      decodeDimensionsLoop, h.2, h.1, List.foldl_cons]
    rw [ih]
    simp

/-- C23, as stated, fails: for four dimensions of size 65536 the product of the sizes is
`2 ^ 64`, and both functions, counting in `size_t`, return `0`. -/
theorem encodeDimensions_count_wraps :
    (bigDimensions.map (fun d => d.size)).prod = 2 ^ 64 ∧
    (encodeDimensions exampleStream [] bigDimensions).2 = 0 ∧
    decodeDimensions exampleStream (encodeDimensions exampleStream [] bigDimensions).1 []
      = some ([], bigDimensions, 0) := by
  decide

/-- C23, amended: for every list of dimensions, when the read primitives of the stream
invert its write primitives, `decodeDimensions` on the stream written by `encodeDimensions`
(whatever follows in it) gives the same dimensions in the same order, leaves what follows,
and returns the same cell count as `encodeDimensions`: the product of the sizes modulo
`2 ^ 64`, which is the product itself when that is below `2 ^ 64` (and `1` for no
dimensions). -/
theorem decodeDimensions_encodeDimensions (ops : StreamOps) (h : ops.Inverts)
    (dims : List Dimension) (rest : List Byte) :
    decodeDimensions ops ((encodeDimensions ops [] dims).1 ++ rest) []
      = some (rest, dims, (encodeDimensions ops [] dims).2) ∧
    (encodeDimensions ops [] dims).2 = (dims.map (fun d => d.size)).prod % sizeModulus ∧
    ((dims.map (fun d => d.size)).prod < sizeModulus →
      (encodeDimensions ops [] dims).2 = (dims.map (fun d => d.size)).prod) ∧
    (encodeDimensions ops [] []).2 = 1 := by
  have henc : encodeDimensions ops [] dims =
      (ops.putInt1_4Bytes dims.length ++ (dims.map (fun d =>
          ops.writeSmallString d.name ++ ops.putInt1_4Bytes d.size)).flatten,
        dims.foldl (fun acc d => (acc * d.size) % sizeModulus) 1) := by
    unfold encodeDimensions
    rw [encodeDimensions_foldl]
    simp
  have hcells : (encodeDimensions ops [] dims).2 =
      (dims.map (fun d => d.size)).prod % sizeModulus := by
    rw [henc]
    simp only
    rw [cells_foldl dims 1 (by decide), Nat.one_mul]
  refine ⟨?_, hcells, ?_, rfl⟩
  · rw [henc]
    simp only [decodeDimensions, List.append_assoc, h.1, List.length_nil, Nat.sub_zero]
    rw [decodeDimensionsLoop_body ops h dims rest [] 1]
    simp
  · intro hlt
    rw [hcells, Nat.mod_eq_of_lt hlt]

theorem exampleStream_inverts : exampleStream.Inverts := by
  constructor
  · intro v rest
    rfl
  · intro name rest
    simp [exampleStream]

theorem decodeDimensions_encodeDimensions_witness :
    exampleStream.Inverts ∧
    decodeDimensions exampleStream
        ((encodeDimensions exampleStream [] [⟨[120], 3⟩, ⟨[121], 5⟩]).1 ++ [7, 7]) []
      = some ([7, 7], [⟨[120], 3⟩, ⟨[121], 5⟩], 15) ∧
    (encodeDimensions exampleStream [] [⟨[120], 3⟩, ⟨[121], 5⟩]).2 = 15 :=
  ⟨exampleStream_inverts,
    (decodeDimensions_encodeDimensions exampleStream exampleStream_inverts
      [⟨[120], 3⟩, ⟨[121], 5⟩] [7, 7]).1,
    (decodeDimensions_encodeDimensions exampleStream exampleStream_inverts
      [⟨[120], 3⟩, ⟨[121], 5⟩] []).2.2.1 (by decide)⟩

end Vespa
